import Mathlib

set_option maxRecDepth 100000

/-!
Verification development for the EchoVerse repository (src/rewrite.py,
src/tts.py, src/app.py).  Python strings are embedded as `List Char`,
Python text helpers (`str.strip`, `str.split`, `str.replace`, ...) as
executable Lean functions, and the three modules' functions as Lean
functions over these, with external effects (the generation pipeline,
the pyttsx3 engine, the filesystem) supplied as explicit oracles.
-/

namespace EchoVerse

/-- Whitespace test used by Python `str.strip` / `str.split`. -/
def isWS (c : Char) : Bool := c.isWhitespace

/-- Python `str.lstrip` (no argument): drop leading whitespace. -/
def lstrip (l : List Char) : List Char := l.dropWhile isWS

/-- Python `str.rstrip` (no argument): drop trailing whitespace. -/
def rstrip (l : List Char) : List Char := (l.reverse.dropWhile isWS).reverse

/-- Python `str.strip` (no argument): drop whitespace at both ends. -/
def pyStrip (l : List Char) : List Char := rstrip (lstrip l)

/-- Python `str.split(sep)` for a single-character separator `sep`:
components between occurrences of `sep`, empty components kept. -/
def splitOnChar (sep : Char) : List Char → List (List Char)
  | [] => [[]]
  | c :: l =>
    if c = sep then [] :: splitOnChar sep l
    else
      match splitOnChar sep l with
      | [] => [[c]]
      | h :: t => (c :: h) :: t

/-- Python `str.split()` (no argument): split on runs of whitespace,
dropping empty components. -/
def splitWS : List Char → List (List Char)
  | [] => []
  | [c] => if isWS c then [] else [[c]]
  | c :: d :: l =>
    if isWS c then splitWS (d :: l)
    else if isWS d then [c] :: splitWS (d :: l)
    else
      match splitWS (d :: l) with
      | [] => [[c]]
      | h :: t => (c :: h) :: t

/-- Python `sep.join(parts)` for a string separator. -/
def joinSep (sep : List Char) : List (List Char) → List Char
  | [] => []
  | [x] => x
  | x :: y :: r => x ++ sep ++ joinSep sep (y :: r)

/-- Python `" ".join(parts)`. -/
def spaceJoin (parts : List (List Char)) : List Char := joinSep [' '] parts

/-- Python `". ".join(parts)` / the `". "` separator used when
`chunk_text` glues sentences together. -/
def dotJoin (parts : List (List Char)) : List Char := joinSep ['.', ' '] parts

/-- The sentence normalization in `chunk_text`
(`text.replace('!', '.').replace('?', '.')`). -/
def normText (l : List Char) : List Char :=
  l.map fun c => if c = '!' then '.' else if c = '?' then '.' else c

/-- The sentence list `chunk_text` splits on:
`text.replace('!', '.').replace('?', '.').split('.')`. -/
def sentencesOf (text : List Char) : List (List Char) :=
  splitOnChar '.' (normText text)

/-- One iteration of the inner word loop of `chunk_text`
(src/rewrite.py lines 136-146); the state is `(chunks, temp_chunk)`. -/
def wordStep (maxc : Nat) (st : List (List Char) × List Char) (w : List Char) :
    List (List Char) × List Char :=
  if maxc < st.2.length + w.length + 1 then
    if st.2 = [] then (st.1 ++ [w], [])
    else (st.1 ++ [pyStrip st.2], w)
  else
    (st.1, if st.2 = [] then w else st.2 ++ ' ' :: w)

/-- One iteration of the sentence loop of `chunk_text`
(src/rewrite.py lines 122-151); the state is `(chunks, current_chunk)`. -/
def sentStep (maxc : Nat) (st : List (List Char) × List Char) (sent : List Char) :
    List (List Char) × List Char :=
  let s := pyStrip sent
  if s = [] then st
  else if maxc < st.2.length + s.length + 1 then
    if st.2 = [] then (splitWS s).foldl (wordStep maxc) (st.1, [])
    else (st.1 ++ [pyStrip st.2], s)
  else
    (st.1, if st.2 = [] then s else st.2 ++ '.' :: ' ' :: s)

/-- `chunk_text(text, max_chunk_size)` from src/rewrite.py lines 112-156. -/
def chunk_text (text : List Char) (maxc : Nat := 500) : List (List Char) :=
  if text.length ≤ maxc then [text]
  else
    let r := (sentencesOf text).foldl (sentStep maxc) ([], [])
    if r.2 = [] then r.1 else r.1 ++ [pyStrip r.2]

/-! Basic facts about `lstrip`, `rstrip`, `pyStrip`. -/

theorem head_dropWhile_not_ws {L : List Char} {c : Char} {t : List Char}
    (h : L.dropWhile isWS = c :: t) : isWS c = false := by
  induction L with
  | nil => simp at h
  | cons a L ih =>
    rw [List.dropWhile_cons] at h
    by_cases ha : isWS a
    · exact ih (by simpa [ha] using h)
    · rw [if_neg (by simpa using ha)] at h
      cases h
      simpa using ha

theorem dropWhile_ws_idem (L : List Char) :
    (L.dropWhile isWS).dropWhile isWS = L.dropWhile isWS := by
  induction L with
  | nil => rfl
  | cons a L ih =>
    rw [List.dropWhile_cons]
    by_cases ha : isWS a
    · simpa [ha] using ih
    · simp [List.dropWhile_cons, ha]

theorem lstrip_decomp (l : List Char) :
    ∃ p, l = p ++ lstrip l ∧ ∀ c ∈ p, isWS c := by
  refine ⟨l.takeWhile isWS, ?_, ?_⟩
  · rw [lstrip, List.takeWhile_append_dropWhile]
  · intro c hc; exact List.mem_takeWhile_imp hc

theorem rstrip_decomp (l : List Char) :
    ∃ t, l = rstrip l ++ t ∧ ∀ c ∈ t, isWS c := by
  refine ⟨(l.reverse.takeWhile isWS).reverse, ?_, ?_⟩
  · conv_lhs => rw [← List.reverse_reverse l,
      ← List.takeWhile_append_dropWhile isWS l.reverse]
    rw [List.reverse_append, rstrip]
  · intro c hc
    exact List.mem_takeWhile_imp (List.mem_reverse.mp hc)

theorem lstrip_pyStrip_decomp (l : List Char) :
    ∃ t, lstrip l = pyStrip l ++ t ∧ ∀ c ∈ t, isWS c :=
  rstrip_decomp (lstrip l)

theorem pyStrip_decomp (l : List Char) :
    ∃ p t, l = p ++ pyStrip l ++ t ∧ (∀ c ∈ p, isWS c) ∧ (∀ c ∈ t, isWS c) := by
  obtain ⟨p, hp, hpw⟩ := lstrip_decomp l
  obtain ⟨t, ht, htw⟩ := lstrip_pyStrip_decomp l
  refine ⟨p, t, ?_, hpw, htw⟩
  calc l = p ++ lstrip l := hp
  _ = p ++ (pyStrip l ++ t) := by rw [ht]
  _ = p ++ pyStrip l ++ t := by rw [List.append_assoc]

theorem mem_of_mem_pyStrip {c : Char} {l : List Char} (h : c ∈ pyStrip l) : c ∈ l := by
  obtain ⟨p, t, hl, -, -⟩ := pyStrip_decomp l
  rw [hl]
  simp only [List.mem_append]
  exact Or.inl (Or.inr h)

theorem length_lstrip_le (l : List Char) : (lstrip l).length ≤ l.length := by
  obtain ⟨p, hp, -⟩ := lstrip_decomp l
  have := congrArg List.length hp
  rw [List.length_append] at this
  omega

theorem length_rstrip_le (l : List Char) : (rstrip l).length ≤ l.length := by
  obtain ⟨t, ht, -⟩ := rstrip_decomp l
  have := congrArg List.length ht
  rw [List.length_append] at this
  omega

theorem length_pyStrip_le (l : List Char) : (pyStrip l).length ≤ l.length := by
  obtain ⟨p, t, hl, -, -⟩ := pyStrip_decomp l
  have := congrArg List.length hl
  simp only [List.length_append] at this
  omega

theorem allWS_of_pyStrip_eq_nil {l : List Char} (h : pyStrip l = []) :
    ∀ c ∈ l, isWS c := by
  obtain ⟨p, t, hl, hpw, htw⟩ := pyStrip_decomp l
  rw [h] at hl
  intro c hc
  rw [hl] at hc
  rcases List.mem_append.mp hc with hc | hc
  · rcases List.mem_append.mp hc with hc | hc
    · exact hpw c hc
    · simp at hc
  · exact htw c hc

theorem lstrip_cons_not_ws {c : Char} {l : List Char} (h : ¬ isWS c) :
    lstrip (c :: l) = c :: l := by
  rw [lstrip, List.dropWhile_cons, if_neg (by simpa using h)]

theorem rstrip_append_not_ws {c : Char} {l : List Char} (h : ¬ isWS c) :
    rstrip (l ++ [c]) = l ++ [c] := by
  rw [rstrip]
  rw [show (l ++ [c]).reverse = c :: l.reverse by simp]
  rw [List.dropWhile_cons, if_neg (by simpa using h)]
  simp

theorem pyStrip_of_ends {c d : Char} {m : List Char}
    (hc : ¬ isWS c) (hd : ¬ isWS d) :
    pyStrip (c :: (m ++ [d])) = c :: (m ++ [d]) := by
  rw [pyStrip, lstrip_cons_not_ws hc,
    show c :: (m ++ [d]) = (c :: m) ++ [d] by simp,
    rstrip_append_not_ws hd]

theorem pyStrip_of_noWS {l : List Char} (h : ∀ c ∈ l, ¬ isWS c) :
    pyStrip l = l := by
  cases l with
  | nil => rfl
  | cons c m =>
    rcases List.eq_nil_or_concat m with rfl | ⟨m', d, rfl⟩
    · have : pyStrip (c :: ([] ++ [c])) = c :: ([] ++ [c]) := by
        exact pyStrip_of_ends (h c (by simp)) (h c (by simp))
      rw [pyStrip, lstrip_cons_not_ws (h c (by simp))]
      rw [show [c] = ([] : List Char) ++ [c] by simp,
        rstrip_append_not_ws (h c (by simp))]
    · rw [List.concat_eq_append]
      exact pyStrip_of_ends (h c (by simp)) (h d (by simp))

theorem rstrip_idem (l : List Char) : rstrip (rstrip l) = rstrip l := by
  rw [rstrip, rstrip, List.reverse_reverse, dropWhile_ws_idem]

theorem head_pyStrip_not_ws {c : Char} {t l : List Char}
    (h : pyStrip l = c :: t) : isWS c = false := by
  obtain ⟨t', ht', -⟩ := lstrip_pyStrip_decomp l
  rw [h] at ht'
  exact head_dropWhile_not_ws (by rw [lstrip] at ht'; simpa using ht')

theorem pyStrip_idem (l : List Char) : pyStrip (pyStrip l) = pyStrip l := by
  rcases hp : pyStrip l with _ | ⟨c, t⟩
  · rfl
  · have hc : ¬ isWS c := by simpa using head_pyStrip_not_ws hp
    rw [pyStrip, lstrip_cons_not_ws hc, ← hp]
    rw [pyStrip, rstrip_idem]

theorem stripped_head_not_ws {c : Char} {l : List Char}
    (h : pyStrip (c :: l) = c :: l) : ¬ isWS c := by
  simpa using head_pyStrip_not_ws h

theorem stripped_last_not_ws {c : Char} {l : List Char}
    (h : pyStrip (l ++ [c]) = l ++ [c]) : ¬ isWS c := by
  intro hws
  have h2 : (rstrip (lstrip (l ++ [c]))).length ≤ (lstrip (l ++ [c])).length :=
    length_rstrip_le _
  have h3 : (lstrip (l ++ [c])).length ≤ (l ++ [c]).length := length_lstrip_le _
  have h4 : (pyStrip (l ++ [c])).length = (l ++ [c]).length := by rw [h]
  rw [pyStrip] at h4
  have h6 : lstrip (l ++ [c]) = l ++ [c] := by
    obtain ⟨p, hp, hpw⟩ := lstrip_decomp (l ++ [c])
    have hl : (l ++ [c]).length = p.length + (lstrip (l ++ [c])).length := by
      conv_lhs => rw [hp]
      rw [List.length_append]
    have hp0 : p.length = 0 := by omega
    have hpnil : p = [] := List.eq_nil_of_length_eq_zero hp0
    rw [hpnil] at hp
    simpa using hp.symm
  have h7 : rstrip (l ++ [c]) = l ++ [c] := by
    have h5 := h
    rw [pyStrip, h6] at h5
    exact h5
  rw [rstrip, show (l ++ [c]).reverse = c :: l.reverse by simp,
    List.dropWhile_cons, if_pos hws] at h7
  have h8 := congrArg List.length h7
  have h9 : (l.reverse.dropWhile isWS).length ≤ l.length := by
    have h10 := length_lstrip_le l.reverse
    rw [lstrip] at h10
    simpa using h10
  simp only [List.length_reverse, List.length_append, List.length_cons,
    List.length_nil] at h8
  omega

/-- The shapes in which `chunk_text` extends `current_chunk` stay stripped. -/
theorem pyStrip_append_mid (mid : List Char) {a s : List Char}
    (ha : pyStrip a = a) (hs : pyStrip s = s) (hna : a ≠ []) (hns : s ≠ []) :
    pyStrip (a ++ mid ++ s) = a ++ mid ++ s := by
  cases a with
  | nil => exact absurd rfl hna
  | cons c a' =>
    rcases List.eq_nil_or_concat s with rfl | ⟨s', d, rfl⟩
    · exact absurd rfl hns
    · rw [List.concat_eq_append] at hs ⊢
      have hc : ¬ isWS c := stripped_head_not_ws ha
      have hd : ¬ isWS d := stripped_last_not_ws hs
      have hshape : (c :: a') ++ mid ++ (s' ++ [d])
          = c :: ((a' ++ mid ++ s') ++ [d]) := by simp
      rw [hshape]
      exact pyStrip_of_ends hc hd


/-! Facts about `splitOnChar` (Python `str.split(sep)`). -/

theorem splitOnChar_nil (sep : Char) : splitOnChar sep [] = [[]] := rfl

theorem splitOnChar_cons_sep (sep : Char) (l : List Char) :
    splitOnChar sep (sep :: l) = [] :: splitOnChar sep l := by
  simp only [splitOnChar, if_pos]

theorem splitOnChar_cons_ne {sep c : Char} (h : ¬ c = sep) (l : List Char)
    {h1 : List Char} {t1 : List (List Char)} (hs : splitOnChar sep l = h1 :: t1) :
    splitOnChar sep (c :: l) = (c :: h1) :: t1 := by
  simp only [splitOnChar, if_neg h, hs]

theorem splitOnChar_ne_nil (sep : Char) (l : List Char) : splitOnChar sep l ≠ [] := by
  cases l with
  | nil => simp [splitOnChar]
  | cons c l =>
    by_cases h : c = sep
    · rw [h, splitOnChar_cons_sep]
      simp
    · rcases hs : splitOnChar sep l with _ | ⟨a, b⟩
      · exact absurd hs (splitOnChar_ne_nil sep l)
      · rw [splitOnChar_cons_ne h l hs]
        simp

theorem splitOnChar_append_sep (sep : Char) (a b : List Char) :
    splitOnChar sep (a ++ sep :: b) = splitOnChar sep a ++ splitOnChar sep b := by
  induction a with
  | nil =>
    rw [List.nil_append, splitOnChar_cons_sep, splitOnChar_nil]
    rfl
  | cons c a ih =>
    by_cases h : c = sep
    · rw [h, List.cons_append, splitOnChar_cons_sep, ih, splitOnChar_cons_sep]
      rfl
    · rcases hs : splitOnChar sep a with _ | ⟨h1, t1⟩
      · exact absurd hs (splitOnChar_ne_nil sep a)
      · have hl : splitOnChar sep (a ++ sep :: b) = h1 :: (t1 ++ splitOnChar sep b) := by
          rw [ih, hs]
          rfl
        rw [List.cons_append, splitOnChar_cons_ne h _ hl, splitOnChar_cons_ne h _ hs]
        rfl

/-- Gluing two component lists across a non-separator character: the last
component of the left list merges with the first component of the right. -/
def joinLast (xs : List (List Char)) (w : Char) (ys : List (List Char)) :
    List (List Char) :=
  match xs with
  | [] => ys
  | [x] =>
    match ys with
    | [] => [x]
    | y :: ys' => (x ++ w :: y) :: ys'
  | x :: xs' => x :: joinLast xs' w ys

theorem splitOnChar_append_glue {sep w : Char} (hw : ¬ w = sep) (a b : List Char) :
    splitOnChar sep (a ++ w :: b) =
      joinLast (splitOnChar sep a) w (splitOnChar sep b) := by
  induction a with
  | nil =>
    rcases hb : splitOnChar sep b with _ | ⟨hb1, tb1⟩
    · exact absurd hb (splitOnChar_ne_nil sep b)
    · rw [List.nil_append, splitOnChar_cons_ne hw b hb, splitOnChar_nil]
      simp [joinLast]
  | cons c a ih =>
    rcases hs : splitOnChar sep a with _ | ⟨h1, t1⟩
    · exact absurd hs (splitOnChar_ne_nil sep a)
    · rcases hb : splitOnChar sep b with _ | ⟨hb1, tb1⟩
      · exact absurd hb (splitOnChar_ne_nil sep b)
      · by_cases h : c = sep
        · rw [h, List.cons_append, splitOnChar_cons_sep, ih, splitOnChar_cons_sep, hs, hb]
          simp [joinLast]
        · cases t1 with
          | nil =>
            have hl : splitOnChar sep (a ++ w :: b) = (h1 ++ w :: hb1) :: tb1 := by
              rw [ih, hs, hb]
              simp [joinLast]
            rw [List.cons_append, splitOnChar_cons_ne h _ hl,
              splitOnChar_cons_ne h _ hs]
            simp [joinLast]
          | cons x t1' =>
            have hl : splitOnChar sep (a ++ w :: b)
                = h1 :: joinLast (x :: t1') w (splitOnChar sep b) := by
              rw [ih, hs]
              simp [joinLast]
            rw [List.cons_append, splitOnChar_cons_ne h _ hl,
              splitOnChar_cons_ne h _ hs]
            simp [joinLast, hb]

theorem mem_splitOnChar {sep : Char} {s l : List Char}
    (h : s ∈ splitOnChar sep l) : ∀ c ∈ s, c ∈ l ∧ c ≠ sep := by
  induction l generalizing s with
  | nil =>
    rw [splitOnChar_nil] at h
    simp at h
    simp [h]
  | cons a l ih =>
    by_cases ha : a = sep
    · rw [ha, splitOnChar_cons_sep] at h
      rcases List.mem_cons.mp h with rfl | h
      · simp
      · intro c hc
        obtain ⟨h1, h2⟩ := ih h c hc
        exact ⟨List.mem_cons_of_mem _ h1, h2⟩
    · rcases hs : splitOnChar sep l with _ | ⟨h1, t1⟩
      · exact absurd hs (splitOnChar_ne_nil sep l)
      · rw [splitOnChar_cons_ne ha l hs] at h
        rcases List.mem_cons.mp h with rfl | h
        · intro c hc
          rcases List.mem_cons.mp hc with rfl | hc
          · exact ⟨List.mem_cons_self _ _, ha⟩
          · obtain ⟨hm1, hm2⟩ := ih (hs ▸ List.mem_cons_self h1 t1) c hc
            exact ⟨List.mem_cons_of_mem _ hm1, hm2⟩
        · intro c hc
          obtain ⟨hm1, hm2⟩ := ih (hs ▸ List.mem_cons_of_mem _ h) c hc
          exact ⟨List.mem_cons_of_mem _ hm1, hm2⟩

theorem splitOnChar_of_not_mem {sep : Char} {l : List Char}
    (h : ∀ c ∈ l, c ≠ sep) : splitOnChar sep l = [l] := by
  induction l with
  | nil => rfl
  | cons c l ih =>
    have hr : splitOnChar sep l = [l] := ih fun d hd => h d (List.mem_cons_of_mem _ hd)
    rw [splitOnChar_cons_ne (h c (List.mem_cons_self c l)) l hr]

/-! Facts about `splitWS` (Python `str.split()`). -/

theorem splitWS_nil : splitWS [] = [] := rfl

theorem splitWS_single_not {c : Char} (hc : ¬ isWS c) : splitWS [c] = [[c]] := by
  simp [splitWS, hc]

theorem splitWS_cons_ws {c : Char} {l : List Char} (h : isWS c) :
    splitWS (c :: l) = splitWS l := by
  cases l <;> simp [splitWS, h]

theorem splitWS_cc_ws {c d : Char} (l : List Char) (hc : ¬ isWS c) (hd : isWS d) :
    splitWS (c :: d :: l) = [c] :: splitWS (d :: l) := by
  simp [splitWS, hc, hd]

theorem splitWS_cc_not {c d : Char} (l : List Char) (hc : ¬ isWS c) (hd : ¬ isWS d)
    {h1 : List Char} {t1 : List (List Char)} (hs : splitWS (d :: l) = h1 :: t1) :
    splitWS (c :: d :: l) = (c :: h1) :: t1 := by
  simp [splitWS, hc, hd, hs]

theorem splitWS_cons_not_ws {c : Char} (h : ¬ isWS c) (l : List Char) :
    ∃ h1 t1, splitWS (c :: l) = (c :: h1) :: t1 := by
  induction l generalizing c with
  | nil => exact ⟨[], [], by simp [splitWS, h]⟩
  | cons d l' ih =>
    by_cases hd : isWS d
    · exact ⟨[], splitWS (d :: l'), splitWS_cc_ws l' h hd⟩
    · obtain ⟨h2, t2, hs⟩ := ih hd
      exact ⟨d :: h2, t2, splitWS_cc_not l' h hd hs⟩

theorem mem_splitWS (l : List Char) :
    ∀ w ∈ splitWS l, w ≠ [] ∧ ∀ c ∈ w, c ∈ l ∧ ¬ isWS c := by
  induction l using splitWS.induct with
  | case1 =>
    intro w hw
    simp [splitWS_nil] at hw
  | case2 c hc =>
    intro w hw
    simp [splitWS, hc] at hw
  | case3 c hc =>
    intro w hw
    rw [splitWS_single_not (by simpa using hc)] at hw
    rcases List.mem_cons.mp hw with rfl | hw
    · refine ⟨by simp, ?_⟩
      intro d hd
      rcases List.mem_cons.mp hd with rfl | hd
      · exact ⟨List.mem_cons_self _ _, by simpa using hc⟩
      · simp at hd
    · simp at hw
  | case4 c d l hc ih =>
    intro w hw
    rw [splitWS_cons_ws (by simpa using hc)] at hw
    obtain ⟨h1, h2⟩ := ih w hw
    exact ⟨h1, fun e he => ⟨List.mem_cons_of_mem _ (h2 e he).1, (h2 e he).2⟩⟩
  | case5 c d l hc hd ih =>
    intro w hw
    rw [splitWS_cc_ws l (by simpa using hc) (by simpa using hd)] at hw
    rcases List.mem_cons.mp hw with rfl | hw
    · refine ⟨by simp, ?_⟩
      intro e he
      rcases List.mem_cons.mp he with rfl | he
      · exact ⟨List.mem_cons_self _ _, by simpa using hc⟩
      · simp at he
    · obtain ⟨h1, h2⟩ := ih w hw
      exact ⟨h1, fun e he => ⟨List.mem_cons_of_mem _ (h2 e he).1, (h2 e he).2⟩⟩
  | case6 c d l hc hd hnil ih =>
    obtain ⟨a, b, hs⟩ := splitWS_cons_not_ws (show ¬ isWS d by simpa using hd) l
    rw [hs] at hnil
    exact absurd hnil (by simp)
  | case7 c d l hc hd h1 t1 hs ih =>
    intro w hw
    rw [splitWS_cc_not l (by simpa using hc) (by simpa using hd) hs] at hw
    have hh1 : h1 ∈ splitWS (d :: l) := by
      rw [hs]
      exact List.mem_cons_self h1 t1
    rcases List.mem_cons.mp hw with rfl | hw
    · obtain ⟨-, h2⟩ := ih h1 hh1
      refine ⟨by simp, ?_⟩
      intro e he
      rcases List.mem_cons.mp he with rfl | he
      · exact ⟨List.mem_cons_self _ _, by simpa using hc⟩
      · exact ⟨List.mem_cons_of_mem _ (h2 e he).1, (h2 e he).2⟩
    · have hwt : w ∈ splitWS (d :: l) := by
        rw [hs]
        exact List.mem_cons_of_mem _ hw
      obtain ⟨h1x, h2⟩ := ih w hwt
      exact ⟨h1x, fun e he => ⟨List.mem_cons_of_mem _ (h2 e he).1, (h2 e he).2⟩⟩

theorem splitWS_glue {w : Char} (hw : isWS w) (a b : List Char) :
    splitWS (a ++ w :: b) = splitWS a ++ splitWS b := by
  induction a using splitWS.induct with
  | case1 => simpa using splitWS_cons_ws hw
  | case2 c hc =>
    show splitWS (c :: w :: b) = splitWS [c] ++ splitWS b
    rw [splitWS_cons_ws (by simpa using hc), splitWS_cons_ws hw,
      show splitWS [c] = [] by simp [splitWS, hc]]
    rfl
  | case3 c hc =>
    show splitWS (c :: w :: b) = splitWS [c] ++ splitWS b
    rw [splitWS_cc_ws b (by simpa using hc) hw, splitWS_cons_ws hw,
      splitWS_single_not (by simpa using hc)]
    rfl
  | case4 c d l hc ih =>
    show splitWS (c :: (d :: l ++ w :: b)) = splitWS (c :: d :: l) ++ splitWS b
    rw [splitWS_cons_ws (by simpa using hc), splitWS_cons_ws (by simpa using hc)]
    exact ih
  | case5 c d l hc hd ih =>
    show splitWS (c :: d :: (l ++ w :: b)) = splitWS (c :: d :: l) ++ splitWS b
    rw [splitWS_cc_ws (l ++ w :: b) (by simpa using hc) (by simpa using hd),
      splitWS_cc_ws l (by simpa using hc) (by simpa using hd)]
    have ih' : splitWS (d :: (l ++ w :: b)) = splitWS (d :: l) ++ splitWS b := ih
    rw [ih']
    rfl
  | case6 c d l hc hd hnil ih =>
    obtain ⟨a', b', hs⟩ := splitWS_cons_not_ws (show ¬ isWS d by simpa using hd) l
    rw [hs] at hnil
    exact absurd hnil (by simp)
  | case7 c d l hc hd h1 t1 hs ih =>
    show splitWS (c :: d :: (l ++ w :: b)) = splitWS (c :: d :: l) ++ splitWS b
    have ih' : splitWS (d :: (l ++ w :: b)) = splitWS (d :: l) ++ splitWS b := ih
    have h3 : splitWS (d :: (l ++ w :: b)) = h1 :: (t1 ++ splitWS b) := by
      rw [ih', hs]
      rfl
    rw [splitWS_cc_not (l ++ w :: b) (by simpa using hc) (by simpa using hd) h3,
      splitWS_cc_not l (by simpa using hc) (by simpa using hd) hs]
    rfl

theorem splitWS_eq_nil {l : List Char} (h : ∀ c ∈ l, isWS c) : splitWS l = [] := by
  induction l with
  | nil => rfl
  | cons c l ih =>
    rw [splitWS_cons_ws (h c (List.mem_cons_self c l))]
    exact ih fun d hd => h d (List.mem_cons_of_mem _ hd)

theorem splitWS_of_noWS {l : List Char} (hne : l ≠ []) (h : ∀ c ∈ l, ¬ isWS c) :
    splitWS l = [l] := by
  induction l with
  | nil => exact absurd rfl hne
  | cons c l ih =>
    have hc : ¬ isWS c := h c (List.mem_cons_self c l)
    cases l with
    | nil => exact splitWS_single_not hc
    | cons d l' =>
      have hd : ¬ isWS d := h d (by simp)
      have ihs : splitWS (d :: l') = [d :: l'] :=
        ih (by simp) fun e he => h e (List.mem_cons_of_mem _ he)
      rw [splitWS_cc_not l' hc hd ihs]

theorem splitWS_ws_append {p l : List Char} (hp : ∀ c ∈ p, isWS c) :
    splitWS (p ++ l) = splitWS l := by
  induction p with
  | nil => rfl
  | cons c p ih =>
    rw [List.cons_append, splitWS_cons_ws (hp c (List.mem_cons_self c p))]
    exact ih fun d hd => hp d (List.mem_cons_of_mem _ hd)

theorem splitWS_append_ws {t l : List Char} (ht : ∀ c ∈ t, isWS c) :
    splitWS (l ++ t) = splitWS l := by
  cases t with
  | nil => rw [List.append_nil]
  | cons w t' =>
    rw [splitWS_glue (ht w (List.mem_cons_self w t')) l t',
      splitWS_eq_nil fun d hd => ht d (List.mem_cons_of_mem _ hd),
      List.append_nil]

theorem splitWS_pyStrip (l : List Char) : splitWS (pyStrip l) = splitWS l := by
  obtain ⟨p, t, hl, hpw, htw⟩ := pyStrip_decomp l
  conv_rhs => rw [hl]
  rw [List.append_assoc, splitWS_ws_append hpw, splitWS_append_ws htw]

theorem splitWS_spaceJoin {ws : List (List Char)}
    (h : ∀ w ∈ ws, w ≠ [] ∧ ∀ c ∈ w, ¬ isWS c) :
    splitWS (spaceJoin ws) = ws := by
  induction ws with
  | nil => rfl
  | cons w ws' ih =>
    cases ws' with
    | nil =>
      obtain ⟨h1, h2⟩ := h w (List.mem_cons_self w [])
      exact splitWS_of_noWS h1 h2
    | cons y r =>
      have hj : spaceJoin (w :: y :: r) = w ++ ' ' :: spaceJoin (y :: r) := by
        rw [spaceJoin, joinSep]
        simp [spaceJoin]
      rw [hj, splitWS_glue (by decide) w (spaceJoin (y :: r)),
        splitWS_of_noWS (h w (by simp)).1 (h w (by simp)).2,
        ih fun v hv => h v (List.mem_cons_of_mem _ hv)]
      rfl

theorem mem_spaceJoin {ws : List (List Char)} {c : Char}
    (h : c ∈ spaceJoin ws) : c = ' ' ∨ ∃ w ∈ ws, c ∈ w := by
  induction ws with
  | nil => simp [spaceJoin, joinSep] at h
  | cons w ws' ih =>
    cases ws' with
    | nil =>
      rw [spaceJoin, joinSep] at h
      exact Or.inr ⟨w, by simp, h⟩
    | cons y r =>
      rw [show spaceJoin (w :: y :: r) = w ++ ' ' :: spaceJoin (y :: r) by
        rw [spaceJoin, joinSep]; simp [spaceJoin]] at h
      rcases List.mem_append.mp h with h | h
      · exact Or.inr ⟨w, by simp, h⟩
      · rcases List.mem_cons.mp h with rfl | h
        · exact Or.inl rfl
        · rcases ih h with h | ⟨v, hv, hc⟩
          · exact Or.inl h
          · exact Or.inr ⟨v, List.mem_cons_of_mem _ hv, hc⟩

/-! Tokenization: normalize `!` and `?` to `.`, split on `.`, then split on
whitespace.  This is the word-level view of a text used to compare
`chunk_text` output with its input. -/

/-- Split on `.` and then on whitespace (no `!`/`?` normalization). -/
def dotTokens (l : List Char) : List (List Char) :=
  ((splitOnChar '.' l).map splitWS).flatten

/-- The tokenization of claim C3: normalize `!` and `?` to `.`, split on
`.`, then split each piece on whitespace. -/
def tokens (l : List Char) : List (List Char) := dotTokens (normText l)

theorem join_map_eq_nil {α β : Type} {f : α → List β} {L : List α}
    (h : ∀ s ∈ L, f s = []) : (L.map f).flatten = [] := by
  induction L with
  | nil => rfl
  | cons a L ih =>
    rw [List.map_cons, List.flatten_cons, h a (List.mem_cons_self a L),
      List.nil_append]
    exact ih fun s hs => h s (List.mem_cons_of_mem _ hs)

theorem dotTokens_nil : dotTokens [] = [] := rfl

theorem dotTokens_cons_dot (l : List Char) : dotTokens ('.' :: l) = dotTokens l := by
  rw [dotTokens, splitOnChar_cons_sep, List.map_cons, List.flatten_cons, splitWS_nil,
    List.nil_append, dotTokens]

theorem dotTokens_cons_ws {c : Char} {l : List Char} (hc : isWS c) :
    dotTokens (c :: l) = dotTokens l := by
  have hcd : ¬ c = '.' := by
    intro h
    rw [h] at hc
    exact (by decide : ¬ isWS '.') hc
  rcases hs : splitOnChar '.' l with _ | ⟨h1, t1⟩
  · exact absurd hs (splitOnChar_ne_nil '.' l)
  · rw [dotTokens, splitOnChar_cons_ne hcd l hs, List.map_cons, List.flatten_cons,
      splitWS_cons_ws hc, dotTokens, hs, List.map_cons, List.flatten_cons]

theorem dotTokens_append_dot (a b : List Char) :
    dotTokens (a ++ '.' :: b) = dotTokens a ++ dotTokens b := by
  rw [dotTokens, splitOnChar_append_sep, List.map_append, List.flatten_append,
    dotTokens, dotTokens]

theorem join_map_splitWS_joinLast {w : Char} (hw : isWS w)
    (xs ys : List (List Char)) :
    ((joinLast xs w ys).map splitWS).flatten
      = (xs.map splitWS).flatten ++ (ys.map splitWS).flatten := by
  induction xs with
  | nil => rw [joinLast]; rfl
  | cons x xs' ih =>
    cases xs' with
    | nil =>
      cases ys with
      | nil => simp [joinLast]
      | cons y ys' =>
        rw [show joinLast [x] w (y :: ys') = (x ++ w :: y) :: ys' by rfl]
        rw [List.map_cons, List.flatten_cons, splitWS_glue hw x y]
        simp
    | cons x2 xs2 =>
      rw [show joinLast (x :: x2 :: xs2) w ys = x :: joinLast (x2 :: xs2) w ys
        by rfl]
      rw [List.map_cons, List.flatten_cons, ih]
      simp

theorem dotTokens_glue {w : Char} (hw : isWS w) (a b : List Char) :
    dotTokens (a ++ w :: b) = dotTokens a ++ dotTokens b := by
  have hwd : ¬ w = '.' := by
    intro h
    rw [h] at hw
    exact (by decide : ¬ isWS '.') hw
  rw [dotTokens, splitOnChar_append_glue hwd a b,
    join_map_splitWS_joinLast hw, dotTokens, dotTokens]

theorem dotTokens_allWS {l : List Char} (h : ∀ c ∈ l, isWS c) :
    dotTokens l = [] := by
  rw [dotTokens]
  apply join_map_eq_nil
  intro s hs
  exact splitWS_eq_nil fun c hc => h c (mem_splitOnChar hs c hc).1

theorem dotTokens_ws_append {p l : List Char} (hp : ∀ c ∈ p, isWS c) :
    dotTokens (p ++ l) = dotTokens l := by
  induction p with
  | nil => rfl
  | cons c p ih =>
    rw [List.cons_append, dotTokens_cons_ws (hp c (List.mem_cons_self c p))]
    exact ih fun d hd => hp d (List.mem_cons_of_mem _ hd)

theorem dotTokens_append_ws {t l : List Char} (ht : ∀ c ∈ t, isWS c) :
    dotTokens (l ++ t) = dotTokens l := by
  cases t with
  | nil => rw [List.append_nil]
  | cons w t' =>
    rw [dotTokens_glue (ht w (List.mem_cons_self w t')) l t',
      dotTokens_allWS fun d hd => ht d (List.mem_cons_of_mem _ hd),
      List.append_nil]

theorem dotTokens_pyStrip (l : List Char) : dotTokens (pyStrip l) = dotTokens l := by
  obtain ⟨p, t, hl, hpw, htw⟩ := pyStrip_decomp l
  conv_rhs => rw [hl]
  rw [List.append_assoc, dotTokens_ws_append hpw, dotTokens_append_ws htw]

theorem dotTokens_noDot {l : List Char} (h : ∀ c ∈ l, c ≠ '.') :
    dotTokens l = splitWS l := by
  rw [dotTokens, splitOnChar_of_not_mem h, List.map_cons, List.map_nil,
    List.flatten_cons, List.flatten_nil, List.append_nil]

theorem dotTokens_word {w : List Char} (hne : w ≠ [])
    (h : ∀ c ∈ w, ¬ isWS c ∧ c ≠ '.') : dotTokens w = [w] := by
  rw [dotTokens_noDot fun c hc => (h c hc).2]
  exact splitWS_of_noWS hne fun c hc => (h c hc).1

/-! Generic fold helpers. -/

theorem foldl_inv {α β : Type} {f : β → α → β} {P : α → Prop} {I : β → Prop}
    (hf : ∀ b a, P a → I b → I (f b a)) :
    ∀ l : List α, (∀ a ∈ l, P a) → ∀ b, I b → I (List.foldl f b l) := by
  intro l
  induction l with
  | nil =>
    intro _ b hb
    exact hb
  | cons a l ih =>
    intro hP b hb
    exact ih (fun x hx => hP x (List.mem_cons_of_mem _ hx)) _
      (hf b a (hP a (List.mem_cons_self a l)) hb)

/-! Branch equations for `wordStep` and `sentStep`. -/

theorem wordStep_eq_long_nil {maxc : Nat} {st : List (List Char) × List Char}
    {w : List Char} (h1 : maxc < st.2.length + w.length + 1) (h2 : st.2 = []) :
    wordStep maxc st w = (st.1 ++ [w], []) := by
  have h1x : maxc < w.length + 1 := by
    rw [h2] at h1
    simpa using h1
  simp [wordStep, h1x, h2]

theorem wordStep_eq_flush {maxc : Nat} {st : List (List Char) × List Char}
    {w : List Char} (h1 : maxc < st.2.length + w.length + 1) (h2 : st.2 ≠ []) :
    wordStep maxc st w = (st.1 ++ [pyStrip st.2], w) := by
  simp [wordStep, h1, h2]

theorem wordStep_eq_first {maxc : Nat} {st : List (List Char) × List Char}
    {w : List Char} (h1 : ¬ maxc < st.2.length + w.length + 1) (h2 : st.2 = []) :
    wordStep maxc st w = (st.1, w) := by
  have h1x : ¬ maxc < w.length + 1 := by
    rw [h2] at h1
    simpa using h1
  simp [wordStep, h1x, h2]

theorem wordStep_eq_extend {maxc : Nat} {st : List (List Char) × List Char}
    {w : List Char} (h1 : ¬ maxc < st.2.length + w.length + 1) (h2 : st.2 ≠ []) :
    wordStep maxc st w = (st.1, st.2 ++ ' ' :: w) := by
  simp [wordStep, h1, h2]

theorem sentStep_eq_skip {maxc : Nat} {st : List (List Char) × List Char}
    {sent : List Char} (h : pyStrip sent = []) : sentStep maxc st sent = st := by
  simp [sentStep, h]

theorem sentStep_eq_word {maxc : Nat} {st : List (List Char) × List Char}
    {sent : List Char} (h0 : pyStrip sent ≠ [])
    (h1 : maxc < st.2.length + (pyStrip sent).length + 1) (h2 : st.2 = []) :
    sentStep maxc st sent
      = (splitWS (pyStrip sent)).foldl (wordStep maxc) (st.1, []) := by
  have h1x : maxc < (pyStrip sent).length + 1 := by
    rw [h2] at h1
    simpa using h1
  simp [sentStep, h0, h1x, h2]

theorem sentStep_eq_flush {maxc : Nat} {st : List (List Char) × List Char}
    {sent : List Char} (h0 : pyStrip sent ≠ [])
    (h1 : maxc < st.2.length + (pyStrip sent).length + 1) (h2 : st.2 ≠ []) :
    sentStep maxc st sent = (st.1 ++ [pyStrip st.2], pyStrip sent) := by
  simp [sentStep, h0, h1, h2]

theorem sentStep_eq_first {maxc : Nat} {st : List (List Char) × List Char}
    {sent : List Char} (h0 : pyStrip sent ≠ [])
    (h1 : ¬ maxc < st.2.length + (pyStrip sent).length + 1) (h2 : st.2 = []) :
    sentStep maxc st sent = (st.1, pyStrip sent) := by
  have h1x : ¬ maxc < (pyStrip sent).length + 1 := by
    rw [h2] at h1
    simpa using h1
  simp [sentStep, h0, h1x, h2]

theorem sentStep_eq_extend {maxc : Nat} {st : List (List Char) × List Char}
    {sent : List Char} (h0 : pyStrip sent ≠ [])
    (h1 : ¬ maxc < st.2.length + (pyStrip sent).length + 1) (h2 : st.2 ≠ []) :
    sentStep maxc st sent = (st.1, st.2 ++ '.' :: ' ' :: pyStrip sent) := by
  simp [sentStep, h0, h1, h2]

/-! Token preservation through the `chunk_text` fold. -/

/-- The tokens accumulated in a fold state: tokens of the finished chunks
followed by tokens of the chunk under construction. -/
def stateTokens (st : List (List Char) × List Char) : List (List Char) :=
  (st.1.map dotTokens).flatten ++ dotTokens st.2

theorem wordStep_tokens {maxc : Nat} {st : List (List Char) × List Char}
    {w : List Char} (hne : w ≠ []) (hpr : ∀ c ∈ w, ¬ isWS c ∧ c ≠ '.') :
    stateTokens (wordStep maxc st w) = stateTokens st ++ [w] := by
  have hdw : dotTokens w = [w] := dotTokens_word hne hpr
  by_cases h1 : maxc < st.2.length + w.length + 1
  · by_cases h2 : st.2 = []
    · rw [wordStep_eq_long_nil h1 h2, stateTokens, stateTokens, h2]
      simp [hdw, dotTokens_nil]
    · rw [wordStep_eq_flush h1 h2, stateTokens, stateTokens]
      simp [hdw, dotTokens_pyStrip]
  · by_cases h2 : st.2 = []
    · rw [wordStep_eq_first h1 h2, stateTokens, stateTokens, h2]
      simp [hdw, dotTokens_nil]
    · rw [wordStep_eq_extend h1 h2, stateTokens, stateTokens,
        dotTokens_glue (by decide) st.2 w]
      simp [hdw]

theorem foldl_wordStep_tokens {maxc : Nat} {ws : List (List Char)}
    (h : ∀ w ∈ ws, w ≠ [] ∧ ∀ c ∈ w, ¬ isWS c ∧ c ≠ '.') :
    ∀ st, stateTokens (ws.foldl (wordStep maxc) st) = stateTokens st ++ ws := by
  induction ws with
  | nil =>
    intro st
    simp
  | cons w ws' ih =>
    intro st
    rw [List.foldl_cons,
      ih (fun v hv => h v (List.mem_cons_of_mem _ hv)) (wordStep maxc st w),
      wordStep_tokens (h w (List.mem_cons_self w ws')).1
        (h w (List.mem_cons_self w ws')).2]
    simp

theorem sentStep_tokens {maxc : Nat} {st : List (List Char) × List Char}
    {sent : List Char} (hsent : ∀ c ∈ sent, c ≠ '.') :
    stateTokens (sentStep maxc st sent) = stateTokens st ++ splitWS sent := by
  by_cases h0 : pyStrip sent = []
  · rw [sentStep_eq_skip h0,
      splitWS_eq_nil (allWS_of_pyStrip_eq_nil h0), List.append_nil]
  · have hchars : ∀ c ∈ pyStrip sent, c ≠ '.' :=
      fun c hc => hsent c (mem_of_mem_pyStrip hc)
    have hdt : dotTokens (pyStrip sent) = splitWS sent := by
      rw [dotTokens_noDot hchars, splitWS_pyStrip]
    by_cases h1 : maxc < st.2.length + (pyStrip sent).length + 1
    · by_cases h2 : st.2 = []
      · rw [sentStep_eq_word h0 h1 h2]
        have hw : ∀ w ∈ splitWS (pyStrip sent),
            w ≠ [] ∧ ∀ c ∈ w, ¬ isWS c ∧ c ≠ '.' := by
          intro w hw
          obtain ⟨hne, hmem⟩ := mem_splitWS _ w hw
          exact ⟨hne, fun c hc => ⟨(hmem c hc).2, hchars c (hmem c hc).1⟩⟩
        rw [foldl_wordStep_tokens hw (st.1, []), stateTokens, stateTokens, h2,
          splitWS_pyStrip]
        try simp [dotTokens_nil]
      · rw [sentStep_eq_flush h0 h1 h2, stateTokens, stateTokens]
        simp [dotTokens_pyStrip, hdt]
    · by_cases h2 : st.2 = []
      · rw [sentStep_eq_first h0 h1 h2, stateTokens, stateTokens, h2]
        simp [dotTokens_nil, hdt]
      · rw [sentStep_eq_extend h0 h1 h2, stateTokens, stateTokens,
          dotTokens_append_dot st.2 (' ' :: pyStrip sent),
          dotTokens_cons_ws (by decide), hdt]
        simp

theorem foldl_sentStep_tokens {maxc : Nat} {sents : List (List Char)}
    (h : ∀ s ∈ sents, ∀ c ∈ s, c ≠ '.') :
    ∀ st, stateTokens (sents.foldl (sentStep maxc) st)
      = stateTokens st ++ (sents.map splitWS).flatten := by
  induction sents with
  | nil =>
    intro st
    simp
  | cons s sents' ih =>
    intro st
    rw [List.foldl_cons,
      ih (fun v hv => h v (List.mem_cons_of_mem _ hv)) (sentStep maxc st s),
      sentStep_tokens (h s (List.mem_cons_self s sents'))]
    simp

/-! Characters appearing in `chunk_text` output. -/

/-- Characters that can appear in a chunk produced from `text`: characters
of the normalized text, plus the separator characters the algorithm
inserts. -/
def chValid (text : List Char) (c : Char) : Prop :=
  c ∈ normText text ∨ c = '.' ∨ c = ' '

theorem mem_normText_ne {text : List Char} {c : Char} (h : c ∈ normText text) :
    c ≠ '!' ∧ c ≠ '?' := by
  rw [normText] at h
  obtain ⟨d, hd, rfl⟩ := List.mem_map.mp h
  by_cases h1 : d = '!'
  · rw [if_pos h1]
    exact (by decide)
  · by_cases h2 : d = '?'
    · rw [if_neg h1, if_pos h2]
      exact (by decide)
    · rw [if_neg h1, if_neg h2]
      exact ⟨h1, h2⟩

theorem chValid_ne {text : List Char} {c : Char} (h : chValid text c) :
    c ≠ '!' ∧ c ≠ '?' := by
  rcases h with h | rfl | rfl
  · exact mem_normText_ne h
  · exact (by decide)
  · exact (by decide)

theorem normText_eq_self {l : List Char} (h : ∀ c ∈ l, c ≠ '!' ∧ c ≠ '?') :
    normText l = l := by
  induction l with
  | nil => rfl
  | cons c l ih =>
    have h1 := (h c (List.mem_cons_self c l)).1
    have h2 := (h c (List.mem_cons_self c l)).2
    have ihs : normText l = l := ih fun d hd => h d (List.mem_cons_of_mem _ hd)
    rw [normText, List.map_cons, if_neg h1, if_neg h2]
    rw [normText] at ihs
    rw [ihs]

/-- Invariant: every character in the fold state is a valid chunk
character. -/
def charsOK (text : List Char) (st : List (List Char) × List Char) : Prop :=
  (∀ ch ∈ st.1, ∀ c ∈ ch, chValid text c) ∧ (∀ c ∈ st.2, chValid text c)

theorem wordStep_chars {text : List Char} {maxc : Nat}
    {st : List (List Char) × List Char} {w : List Char}
    (hw : ∀ c ∈ w, chValid text c) (hst : charsOK text st) :
    charsOK text (wordStep maxc st w) := by
  obtain ⟨hch, hcur⟩ := hst
  have hstrip : ∀ c ∈ pyStrip st.2, chValid text c :=
    fun c hc => hcur c (mem_of_mem_pyStrip hc)
  by_cases h1 : maxc < st.2.length + w.length + 1
  · by_cases h2 : st.2 = []
    · rw [wordStep_eq_long_nil h1 h2]
      refine ⟨?_, by simp⟩
      intro ch hch2
      rcases List.mem_append.mp hch2 with h | h
      · exact hch ch h
      · rw [List.mem_singleton.mp h]
        exact hw
    · rw [wordStep_eq_flush h1 h2]
      refine ⟨?_, hw⟩
      intro ch hch2
      rcases List.mem_append.mp hch2 with h | h
      · exact hch ch h
      · rw [List.mem_singleton.mp h]
        exact hstrip
  · by_cases h2 : st.2 = []
    · rw [wordStep_eq_first h1 h2]
      exact ⟨hch, hw⟩
    · rw [wordStep_eq_extend h1 h2]
      refine ⟨hch, ?_⟩
      intro c hc
      rcases List.mem_append.mp hc with h | h
      · exact hcur c h
      · rcases List.mem_cons.mp h with rfl | h
        · exact Or.inr (Or.inr rfl)
        · exact hw c h

theorem sentStep_chars {text : List Char} {maxc : Nat}
    {st : List (List Char) × List Char} {sent : List Char}
    (hsent : ∀ c ∈ sent, chValid text c) (hst : charsOK text st) :
    charsOK text (sentStep maxc st sent) := by
  obtain ⟨hch, hcur⟩ := hst
  have hstrip : ∀ c ∈ pyStrip sent, chValid text c :=
    fun c hc => hsent c (mem_of_mem_pyStrip hc)
  have hstripc : ∀ c ∈ pyStrip st.2, chValid text c :=
    fun c hc => hcur c (mem_of_mem_pyStrip hc)
  by_cases h0 : pyStrip sent = []
  · rw [sentStep_eq_skip h0]
    exact ⟨hch, hcur⟩
  · by_cases h1 : maxc < st.2.length + (pyStrip sent).length + 1
    · by_cases h2 : st.2 = []
      · rw [sentStep_eq_word h0 h1 h2]
        have hinit : charsOK text (st.1, []) := by
          refine ⟨hch, ?_⟩
          intro c hc
          simp at hc
        refine foldl_inv (fun b a ha hb => @wordStep_chars text maxc b a ha hb) _ ?_ _ hinit
        intro w hwmem c hc
        exact hstrip c ((mem_splitWS _ w hwmem).2 c hc).1
      · rw [sentStep_eq_flush h0 h1 h2]
        refine ⟨?_, hstrip⟩
        intro ch hch2
        rcases List.mem_append.mp hch2 with h | h
        · exact hch ch h
        · rw [List.mem_singleton.mp h]
          exact hstripc
    · by_cases h2 : st.2 = []
      · rw [sentStep_eq_first h0 h1 h2]
        exact ⟨hch, hstrip⟩
      · rw [sentStep_eq_extend h0 h1 h2]
        refine ⟨hch, ?_⟩
        intro c hc
        rcases List.mem_append.mp hc with h | h
        · exact hcur c h
        · rcases List.mem_cons.mp h with rfl | h
          · exact Or.inr (Or.inl rfl)
          · rcases List.mem_cons.mp h with rfl | h
            · exact Or.inr (Or.inr rfl)
            · exact hstrip c h

theorem chunk_text_chars {text : List Char} {maxc : Nat}
    (hlong : ¬ text.length ≤ maxc) :
    ∀ chunk ∈ chunk_text text maxc, ∀ c ∈ chunk, chValid text c := by
  intro chunk hchunk
  simp only [chunk_text, if_neg hlong] at hchunk
  have hInv : charsOK text ((sentencesOf text).foldl (sentStep maxc) ([], [])) := by
    have hinit : charsOK text (([], []) : List (List Char) × List Char) := by
      constructor
      · intro ch hc
        simp at hc
      · intro c hc
        simp at hc
    refine foldl_inv (fun b a ha hb => @sentStep_chars text maxc b a ha hb) _ ?_ _ hinit
    intro s hs c hc
    exact Or.inl (mem_splitOnChar hs c hc).1
  by_cases h2 : ((sentencesOf text).foldl (sentStep maxc) ([], [])).2 = []
  · rw [if_pos h2] at hchunk
    exact hInv.1 chunk hchunk
  · rw [if_neg h2] at hchunk
    rcases List.mem_append.mp hchunk with h | h
    · exact hInv.1 chunk h
    · rw [List.mem_singleton.mp h]
      intro c hc
      exact hInv.2 c (mem_of_mem_pyStrip hc)

/-- Token preservation for `chunk_text`: the concatenation of the token
sequences of the chunks is exactly the token sequence of the input. -/
theorem chunk_text_tokens (text : List Char) (maxc : Nat) :
    ((chunk_text text maxc).map tokens).flatten = tokens text := by
  by_cases hlen : text.length ≤ maxc
  · rw [chunk_text, if_pos hlen]
    simp
  · have hsent : ∀ s ∈ sentencesOf text, ∀ c ∈ s, c ≠ '.' := by
      intro s hs c hc
      exact (mem_splitOnChar hs c hc).2
    have hchars := chunk_text_chars hlen
    have htok : ∀ chunk ∈ chunk_text text maxc, tokens chunk = dotTokens chunk := by
      intro chunk hc
      rw [tokens, normText_eq_self]
      intro c hcc
      exact chValid_ne (hchars chunk hc c hcc)
    rw [List.map_congr_left htok]
    have hfold := @foldl_sentStep_tokens maxc (sentencesOf text) hsent
      (([], []) : List (List Char) × List Char)
    have hinit : stateTokens (([], []) : List (List Char) × List Char) = [] := rfl
    rw [hinit, List.nil_append] at hfold
    have hgoal : tokens text = ((sentencesOf text).map splitWS).flatten := rfl
    simp only [chunk_text, if_neg hlen]
    by_cases h2 : ((sentencesOf text).foldl (sentStep maxc) ([], [])).2 = []
    · rw [if_pos h2, hgoal, ← hfold, stateTokens, h2, dotTokens_nil,
        List.append_nil]
    · rw [if_neg h2, hgoal, ← hfold, stateTokens]
      simp [dotTokens_pyStrip]

/-! Shape facts about `joinSep`. -/

theorem joinSep_singleton (sep : List Char) (x : List Char) :
    joinSep sep [x] = x := rfl

theorem joinSep_ne_nil {sep : List Char} {x : List Char}
    (hx : x ≠ []) (rest : List (List Char)) : joinSep sep (x :: rest) ≠ [] := by
  cases rest with
  | nil => exact hx
  | cons y r =>
    rw [joinSep]
    exact List.append_ne_nil_of_left_ne_nil
      (List.append_ne_nil_of_left_ne_nil hx sep) _

theorem joinSep_append_one (sep : List Char) {l : List (List Char)}
    (hl : l ≠ []) (x : List Char) :
    joinSep sep (l ++ [x]) = joinSep sep l ++ sep ++ x := by
  induction l with
  | nil => exact absurd rfl hl
  | cons a l ih =>
    cases l with
    | nil => rfl
    | cons b r =>
      have ihs : joinSep sep (b :: (r ++ [x])) = joinSep sep (b :: r) ++ sep ++ x := by
        simpa using ih (by simp)
      calc joinSep sep ((a :: b :: r) ++ [x])
          = a ++ sep ++ joinSep sep (b :: (r ++ [x])) := rfl
      _ = a ++ sep ++ (joinSep sep (b :: r) ++ sep ++ x) := by rw [ihs]
      _ = joinSep sep (a :: b :: r) ++ sep ++ x := by
            rw [show joinSep sep (a :: b :: r) = a ++ sep ++ joinSep sep (b :: r)
              from rfl]
            simp

theorem spaceJoin_cons_cons (w y : List Char) (r : List (List Char)) :
    spaceJoin (w :: y :: r) = w ++ ' ' :: spaceJoin (y :: r) := by
  rw [spaceJoin, joinSep]
  simp [spaceJoin]

theorem spaceJoin_ne_nil {ws : List (List Char)} {w : List Char}
    (hw : w ≠ []) (rest : List (List Char)) (h : ws = w :: rest) :
    spaceJoin ws ≠ [] := by
  rw [h]
  exact joinSep_ne_nil hw rest

theorem spaceJoin_stripped {ws : List (List Char)} (hne : ws ≠ [])
    (h : ∀ w ∈ ws, w ≠ [] ∧ ∀ c ∈ w, ¬ isWS c) :
    pyStrip (spaceJoin ws) = spaceJoin ws := by
  induction ws with
  | nil => exact absurd rfl hne
  | cons w ws' ih =>
    cases ws' with
    | nil =>
      rw [show spaceJoin [w] = w from rfl]
      exact pyStrip_of_noWS (h w (List.mem_cons_self w [])).2
    | cons y r =>
      rw [spaceJoin_cons_cons]
      have hrec : pyStrip (spaceJoin (y :: r)) = spaceJoin (y :: r) :=
        ih (by simp) fun v hv => h v (List.mem_cons_of_mem _ hv)
      have hwp := h w (List.mem_cons_self w _)
      have hyne : spaceJoin (y :: r) ≠ [] :=
        spaceJoin_ne_nil (h y (by simp)).1 r rfl
      have := pyStrip_append_mid [' '] (pyStrip_of_noWS hwp.2) hrec hwp.1 hyne
      rw [show w ++ [' '] ++ spaceJoin (y :: r) = w ++ ' ' :: spaceJoin (y :: r)
        by simp] at this
      exact this

/-! Structural characterization of `chunk_text` output. -/

/-- `p` is the stripped form of a sentence of the sentence list `S`, and
nonempty. -/
def isSent (S : List (List Char)) (p : List Char) : Prop :=
  p ≠ [] ∧ ∃ s ∈ S, p = pyStrip s

/-- `h` is a nonempty space-join of words of an oversized sentence of
`S` (one whose stripped form alone exceeds the chunk limit). -/
def isWordRun (maxc : Nat) (S : List (List Char)) (h : List Char) : Prop :=
  ∃ s ∈ S, maxc < (pyStrip s).length + 1 ∧
    ∃ ws, ws ≠ [] ∧ (∀ w ∈ ws, w ∈ splitWS (pyStrip s)) ∧ h = spaceJoin ws

/-- Structure of a chunk: a `". "`-join whose first part is a whole
stripped sentence or a word-run of an oversized sentence, and whose
remaining parts are whole stripped sentences. -/
def chunkStruct (maxc : Nat) (S : List (List Char)) (c : List Char) : Prop :=
  ∃ h rest, c = dotJoin (h :: rest) ∧ (isSent S h ∨ isWordRun maxc S h) ∧
    ∀ p ∈ rest, isSent S p

/-- Size of a chunk: within `maxc + 1` characters, or a single
whitespace-free word, or a whole stripped sentence. -/
def chunkSize (maxc : Nat) (S : List (List Char)) (c : List Char) : Prop :=
  c.length ≤ maxc + 1 ∨ (∀ ch ∈ c, ¬ isWS ch) ∨ ∃ s ∈ S, c = pyStrip s

def goodChunk (maxc : Nat) (S : List (List Char)) (c : List Char) : Prop :=
  chunkSize maxc S c ∧ chunkStruct maxc S c

def goodState (maxc : Nat) (S : List (List Char))
    (st : List (List Char) × List Char) : Prop :=
  (∀ c ∈ st.1, goodChunk maxc S c) ∧
  (st.2 = [] ∨ (pyStrip st.2 = st.2 ∧ goodChunk maxc S st.2))

def goodWordState (maxc : Nat) (S : List (List Char)) (s : List Char)
    (st : List (List Char) × List Char) : Prop :=
  (∀ c ∈ st.1, goodChunk maxc S c) ∧
  (st.2 = [] ∨
    ((∃ ws, ws ≠ [] ∧ (∀ w ∈ ws, w ∈ splitWS s) ∧ st.2 = spaceJoin ws) ∧
      (st.2.length ≤ maxc ∨ ∀ ch ∈ st.2, ¬ isWS ch)))

theorem word_facts {s w : List Char} (hw : w ∈ splitWS s) :
    w ≠ [] ∧ ∀ c ∈ w, ¬ isWS c :=
  ⟨(mem_splitWS s w hw).1, fun c hc => ((mem_splitWS s w hw).2 c hc).2⟩

theorem spaceJoin_append_one {ws : List (List Char)} (hne : ws ≠ [])
    (w : List Char) : spaceJoin (ws ++ [w]) = spaceJoin ws ++ ' ' :: w := by
  rw [spaceJoin, spaceJoin, joinSep_append_one [' '] hne w]
  simp

theorem dotJoin_append_one {l : List (List Char)} (hne : l ≠ [])
    (s : List Char) : dotJoin (l ++ [s]) = dotJoin l ++ '.' :: ' ' :: s := by
  rw [dotJoin, dotJoin, joinSep_append_one ['.', ' '] hne s]
  simp

theorem goodChunk_word {maxc : Nat} {S : List (List Char)} {s0 w : List Char}
    (hs0 : s0 ∈ S) (hbig : maxc < (pyStrip s0).length + 1)
    (hw : w ∈ splitWS (pyStrip s0)) : goodChunk maxc S w := by
  obtain ⟨hne, hnws⟩ := word_facts hw
  refine ⟨Or.inr (Or.inl hnws),
    w, [], rfl, Or.inr ⟨s0, hs0, hbig, [w], by simp, ?_, rfl⟩, ?_⟩
  · intro w2 hw2
    rw [List.mem_singleton.mp hw2]
    exact hw
  · intro p hp
    simp at hp

theorem goodChunk_wordRun {maxc : Nat} {S : List (List Char)}
    {s0 : List Char} {ws : List (List Char)}
    (hs0 : s0 ∈ S) (hbig : maxc < (pyStrip s0).length + 1) (hne : ws ≠ [])
    (hmem : ∀ w ∈ ws, w ∈ splitWS (pyStrip s0))
    (hsize : (spaceJoin ws).length ≤ maxc ∨ ∀ ch ∈ spaceJoin ws, ¬ isWS ch) :
    pyStrip (spaceJoin ws) = spaceJoin ws ∧ goodChunk maxc S (spaceJoin ws) := by
  have hwords : ∀ w ∈ ws, w ≠ [] ∧ ∀ c ∈ w, ¬ isWS c :=
    fun w hw => word_facts (hmem w hw)
  refine ⟨spaceJoin_stripped hne hwords, ?_, ?_⟩
  · rcases hsize with h | h
    · exact Or.inl (le_trans h (Nat.le_succ maxc))
    · exact Or.inr (Or.inl h)
  · refine ⟨spaceJoin ws, [], rfl,
      Or.inr ⟨s0, hs0, hbig, ws, hne, hmem, rfl⟩, ?_⟩
    intro p hp
    simp at hp

theorem goodChunk_sent {maxc : Nat} {S : List (List Char)} {sent : List Char}
    (hs : sent ∈ S) (hne : pyStrip sent ≠ []) :
    goodChunk maxc S (pyStrip sent) := by
  refine ⟨Or.inr (Or.inr ⟨sent, hs, rfl⟩),
    pyStrip sent, [], rfl, Or.inl ⟨hne, sent, hs, rfl⟩, ?_⟩
  intro p hp
  simp at hp

theorem wordStep_good {maxc : Nat} {S : List (List Char)} {s0 : List Char}
    (hs0 : s0 ∈ S) (hbig : maxc < (pyStrip s0).length + 1)
    {st : List (List Char) × List Char} {w : List Char}
    (hw : w ∈ splitWS (pyStrip s0))
    (hst : goodWordState maxc S (pyStrip s0) st) :
    goodWordState maxc S (pyStrip s0) (wordStep maxc st w) := by
  obtain ⟨hch, hcur⟩ := hst
  obtain ⟨hwne, hwnws⟩ := word_facts hw
  by_cases h1 : maxc < st.2.length + w.length + 1
  · by_cases h2 : st.2 = []
    · rw [wordStep_eq_long_nil h1 h2]
      refine ⟨?_, Or.inl rfl⟩
      intro c hc
      rcases List.mem_append.mp hc with h | h
      · exact hch c h
      · rw [List.mem_singleton.mp h]
        exact goodChunk_word hs0 hbig hw
    · rw [wordStep_eq_flush h1 h2]
      rcases hcur with h2' | ⟨⟨ws, hwsne, hwsmem, hwseq⟩, hsize⟩
      · exact absurd h2' h2
      refine ⟨?_, Or.inr ⟨⟨[w], by simp, ?_, rfl⟩, Or.inr hwnws⟩⟩
      · intro c hc
        rcases List.mem_append.mp hc with h | h
        · exact hch c h
        · rw [List.mem_singleton.mp h, hwseq]
          obtain ⟨hstr, hgood⟩ := goodChunk_wordRun hs0 hbig hwsne hwsmem
            (by rw [← hwseq]; exact hsize)
          rw [hstr]
          exact hgood
      · intro w2 hw2
        rw [List.mem_singleton.mp hw2]
        exact hw
  · by_cases h2 : st.2 = []
    · rw [wordStep_eq_first h1 h2]
      refine ⟨hch, Or.inr ⟨⟨[w], by simp, ?_, rfl⟩, Or.inl ?_⟩⟩
      · intro w2 hw2
        rw [List.mem_singleton.mp hw2]
        exact hw
      · show w.length ≤ maxc
        rw [h2] at h1
        simp only [List.length_nil] at h1
        omega
    · rw [wordStep_eq_extend h1 h2]
      rcases hcur with h2' | ⟨⟨ws, hwsne, hwsmem, hwseq⟩, hsize⟩
      · exact absurd h2' h2
      refine ⟨hch, Or.inr ⟨⟨ws ++ [w], by simp, ?_, ?_⟩, Or.inl ?_⟩⟩
      · intro w2 hw2
        rcases List.mem_append.mp hw2 with h | h
        · exact hwsmem w2 h
        · rw [List.mem_singleton.mp h]
          exact hw
      · rw [spaceJoin_append_one hwsne w, ← hwseq]
      · simp only [List.length_append, List.length_cons]
        omega

theorem sentStep_good {maxc : Nat} {S : List (List Char)}
    {st : List (List Char) × List Char} {sent : List Char}
    (hsent : sent ∈ S) (hst : goodState maxc S st) :
    goodState maxc S (sentStep maxc st sent) := by
  obtain ⟨hch, hcur⟩ := hst
  by_cases h0 : pyStrip sent = []
  · rw [sentStep_eq_skip h0]
    exact ⟨hch, hcur⟩
  · by_cases h1 : maxc < st.2.length + (pyStrip sent).length + 1
    · by_cases h2 : st.2 = []
      · rw [sentStep_eq_word h0 h1 h2]
        have hbig : maxc < (pyStrip sent).length + 1 := by
          rw [h2] at h1
          simpa using h1
        have hinit : goodWordState maxc S (pyStrip sent) (st.1, []) :=
          ⟨hch, Or.inl rfl⟩
        have hres : goodWordState maxc S (pyStrip sent)
            ((splitWS (pyStrip sent)).foldl (wordStep maxc) (st.1, [])) :=
          foldl_inv
            (fun b a ha hb => @wordStep_good maxc S sent hsent hbig b a ha hb)
            (splitWS (pyStrip sent)) (fun a ha => ha) _ hinit
        obtain ⟨hch2, hcur2⟩ := hres
        refine ⟨hch2, ?_⟩
        rcases hcur2 with h2' | ⟨⟨ws, hwsne, hwsmem, hwseq⟩, hsize⟩
        · exact Or.inl h2'
        · right
          rw [hwseq]
          exact goodChunk_wordRun hsent hbig hwsne hwsmem
            (by rw [← hwseq]; exact hsize)
      · rw [sentStep_eq_flush h0 h1 h2]
        rcases hcur with h2' | ⟨hstr, hgood⟩
        · exact absurd h2' h2
        refine ⟨?_, Or.inr ⟨pyStrip_idem sent, goodChunk_sent hsent h0⟩⟩
        intro c hc
        rcases List.mem_append.mp hc with h | h
        · exact hch c h
        · rw [List.mem_singleton.mp h, hstr]
          exact hgood
    · by_cases h2 : st.2 = []
      · rw [sentStep_eq_first h0 h1 h2]
        exact ⟨hch, Or.inr ⟨pyStrip_idem sent, goodChunk_sent hsent h0⟩⟩
      · rw [sentStep_eq_extend h0 h1 h2]
        rcases hcur with h2' | ⟨hstr, hsz, hstc⟩
        · exact absurd h2' h2
        refine ⟨hch, Or.inr ⟨?_, ?_, ?_⟩⟩
        · have hmid := pyStrip_append_mid ['.', ' '] hstr (pyStrip_idem sent) h2 h0
          rw [show st.2 ++ ['.', ' '] ++ pyStrip sent
            = st.2 ++ '.' :: ' ' :: pyStrip sent by simp] at hmid
          exact hmid
        · left
          simp only [List.length_append, List.length_cons]
          omega
        · obtain ⟨hd, rest, heq, hh, hrest⟩ := hstc
          refine ⟨hd, rest ++ [pyStrip sent], ?_, hh, ?_⟩
          · rw [heq, show hd :: (rest ++ [pyStrip sent])
              = (hd :: rest) ++ [pyStrip sent] by rfl,
              dotJoin_append_one (by simp) (pyStrip sent)]
          · intro p hp
            rcases List.mem_append.mp hp with h | h
            · exact hrest p h
            · rw [List.mem_singleton.mp h]
              exact ⟨h0, sent, hsent, rfl⟩

theorem chunk_text_good {text : List Char} {maxc : Nat}
    (hlong : ¬ text.length ≤ maxc) :
    ∀ chunk ∈ chunk_text text maxc, goodChunk maxc (sentencesOf text) chunk := by
  intro chunk hchunk
  simp only [chunk_text, if_neg hlong] at hchunk
  have hInv : goodState maxc (sentencesOf text)
      ((sentencesOf text).foldl (sentStep maxc) ([], [])) := by
    have hinit : goodState maxc (sentencesOf text)
        (([], []) : List (List Char) × List Char) := by
      refine ⟨?_, Or.inl rfl⟩
      intro c hc
      simp at hc
    exact foldl_inv
      (fun b a ha hb => @sentStep_good maxc (sentencesOf text) b a ha hb)
      (sentencesOf text) (fun a ha => ha) _ hinit
  obtain ⟨hch, hcur⟩ := hInv
  by_cases h2 : ((sentencesOf text).foldl (sentStep maxc) ([], [])).2 = []
  · rw [if_pos h2] at hchunk
    exact hch chunk hchunk
  · rw [if_neg h2] at hchunk
    rcases List.mem_append.mp hchunk with h | h
    · exact hch chunk h
    · rcases hcur with h2' | ⟨hstr, hgood⟩
      · exact absurd h2' h2
      · rw [List.mem_singleton.mp h, hstr]
        exact hgood

/-! Claims C1, C2, C3 about `chunk_text`. -/

theorem dotJoin_cons_cons (x y : List Char) (r : List (List Char)) :
    dotJoin (x :: y :: r) = x ++ '.' :: ' ' :: dotJoin (y :: r) := by
  rw [dotJoin, joinSep]
  simp [dotJoin]

theorem dotJoin_cons_length (p : List Char) (r : List (List Char)) :
    p.length ≤ (dotJoin (p :: r)).length := by
  cases r with
  | nil => exact le_refl _
  | cons y r' =>
    rw [dotJoin_cons_cons]
    simp

/-- The 501-character single-word input used against claim C1. -/
def longWord : List Char := List.replicate 501 'a'

/-- Claim C1, counterexample: C1 states that every chunk of
`chunk_text(text, max_chunk_size=500)` is strictly shorter than 500
characters, including for inputs containing a single word longer than 500
characters.  On the 501-character single-word input the function returns
that word unsplit as a single chunk of length 501, so the claim is false. -/
theorem c1_counterexample :
    ¬ ∀ c ∈ chunk_text longWord 500, c.length < 500 := by
  decide

/-- Claim C1, amended: every chunk returned by `chunk_text(text, 500)` has
at most 501 characters, or is a single whitespace-free word, or is a whole
stripped sentence of the input (the latter two may be arbitrarily long). -/
theorem c1_theorem (text : List Char) :
    ∀ c ∈ chunk_text text 500,
      c.length ≤ 501 ∨ (∀ ch ∈ c, ¬ isWS ch) ∨
        ∃ s ∈ sentencesOf text, c = pyStrip s := by
  intro c hc
  by_cases hlen : text.length ≤ 500
  · simp only [chunk_text, if_pos hlen] at hc
    rw [List.mem_singleton.mp hc]
    left
    omega
  · exact (chunk_text_good hlen c hc).1

/-- Witness for the amended C1 theorem: the 501-character word is its own
chunk and satisfies the whitespace-free disjunct. -/
theorem c1_theorem_witness :
    longWord ∈ chunk_text longWord 500 ∧
      (longWord.length ≤ 501 ∨ (∀ ch ∈ longWord, ¬ isWS ch) ∨
        ∃ s ∈ sentencesOf longWord, longWord = pyStrip s) :=
  ⟨by decide, c1_theorem longWord longWord (by decide)⟩

/-- The input used against claim C2: an oversized first sentence followed
by a short second sentence, chunked with limit 10. -/
def exHybrid : List Char := "aa bb cc dd. ee".toList

/-- The chunk of `chunk_text exHybrid 10` that mixes the trailing word of
the word-split first sentence with the whole second sentence. -/
def hybridChunk : List Char := "dd. ee".toList

/-- Claim C2, counterexample: C2 states that every chunk is a concatenation of
whole sentences of the input, with word-splitting only for a sentence that
alone exceeds the limit.  The chunk `"dd. ee"` of
`chunk_text("aa bb cc dd. ee", 10)` is neither a `". "`-join of whole
stripped sentences nor a space-join of words of a single oversized
sentence: it glues the leftover word `"dd"` of the word-split first
sentence to the whole second sentence. -/
theorem c2_counterexample :
    hybridChunk ∈ chunk_text exHybrid 10 ∧
      ¬ ((∃ parts : List (List Char), parts ≠ [] ∧
            (∀ p ∈ parts, ∃ s ∈ sentencesOf exHybrid, p = pyStrip s) ∧
            hybridChunk = dotJoin parts) ∨
          ∃ s ∈ sentencesOf exHybrid, 10 < (pyStrip s).length + 1 ∧
            ∃ ws, ws ≠ [] ∧ (∀ w ∈ ws, w ∈ splitWS (pyStrip s)) ∧
              hybridChunk = spaceJoin ws) := by
  constructor
  · decide
  · intro hclaim
    have hS : sentencesOf exHybrid = ["aa bb cc dd".toList, " ee".toList] := by
      decide
    rcases hclaim with ⟨parts, hne, hmem, heq⟩ |
      ⟨s, hs, hbig, ws, hwsne, hwsmem, heq⟩
    · have hcand : ∀ p ∈ parts, p = "aa bb cc dd".toList ∨ p = "ee".toList := by
        intro p hp
        obtain ⟨s, hsmem, rfl⟩ := hmem p hp
        rw [hS] at hsmem
        rcases List.mem_cons.mp hsmem with rfl | hsmem
        · left
          decide
        · rw [List.mem_singleton.mp hsmem]
          right
          decide
      have hlen2 : ∀ p ∈ parts, 2 ≤ p.length := by
        intro p hp
        rcases hcand p hp with rfl | rfl <;> decide
      cases parts with
      | nil => exact hne rfl
      | cons p1 rest =>
        cases rest with
        | nil =>
          rcases hcand p1 (by simp) with rfl | rfl
          · exact absurd heq (by decide)
          · exact absurd heq (by decide)
        | cons p2 rest2 =>
          cases rest2 with
          | nil =>
            rcases hcand p1 (by simp) with rfl | rfl <;>
              rcases hcand p2 (by simp) with rfl | rfl <;>
                exact absurd heq (by decide)
          | cons p3 rest3 =>
            have hlq := congrArg List.length heq
            have h1 : (dotJoin (p1 :: p2 :: p3 :: rest3)).length
                = p1.length + 2 + (dotJoin (p2 :: p3 :: rest3)).length := by
              rw [dotJoin_cons_cons]
              simp
              omega
            have h2 : (dotJoin (p2 :: p3 :: rest3)).length
                = p2.length + 2 + (dotJoin (p3 :: rest3)).length := by
              rw [dotJoin_cons_cons]
              simp
              omega
            have h3 : p3.length ≤ (dotJoin (p3 :: rest3)).length :=
              dotJoin_cons_length p3 rest3
            have hp1 := hlen2 p1 (by simp)
            have hp2 := hlen2 p2 (by simp)
            have hp3 := hlen2 p3 (by simp)
            have hchl : hybridChunk.length = 6 := by decide
            omega
    · rw [hS] at hs
      rcases List.mem_cons.mp hs with rfl | hs
      · have hsplit : splitWS (pyStrip ("aa bb cc dd".toList))
            = [['a', 'a'], ['b', 'b'], ['c', 'c'], ['d', 'd']] := by decide
        have hdot : ('.' : Char) ∈ hybridChunk := by decide
        rw [heq] at hdot
        rcases mem_spaceJoin hdot with h | ⟨w, hwmem, hdotw⟩
        · exact absurd h (by decide)
        · have hw := hwsmem w hwmem
          rw [hsplit] at hw
          simp only [List.mem_cons, List.mem_singleton] at hw
          rcases hw with rfl | rfl | rfl | rfl | h
          · exact absurd hdotw (by decide)
          · exact absurd hdotw (by decide)
          · exact absurd hdotw (by decide)
          · exact absurd hdotw (by decide)
          · simp at h
      · rw [List.mem_singleton.mp hs] at hbig
        exact absurd hbig (by decide)

/-- Claim C2, amended: for input longer than `max_chunk_size`, every chunk
is a `". "`-join whose first part is either a whole stripped sentence or a
run of words from an oversized sentence, and whose remaining parts are
whole stripped sentences.  Word-splitting happens only for a sentence
exceeding the limit that arrives while the current chunk is empty; an
oversized sentence arriving while the current chunk is nonempty is kept
whole as (the start of) its own chunk, and its leftover word-run can be
glued to later sentences. -/
theorem c2_theorem (text : List Char) (maxc : Nat) (hlong : maxc < text.length) :
    ∀ c ∈ chunk_text text maxc,
      ∃ h rest, c = dotJoin (h :: rest) ∧
        (isSent (sentencesOf text) h ∨ isWordRun maxc (sentencesOf text) h) ∧
        ∀ p ∈ rest, isSent (sentencesOf text) p := by
  intro c hc
  exact (chunk_text_good (by omega) c hc).2

/-- Witness for the amended C2 theorem at the concrete hybrid input. -/
theorem c2_theorem_witness :
    10 < exHybrid.length ∧ hybridChunk ∈ chunk_text exHybrid 10 ∧
      ∃ h rest, hybridChunk = dotJoin (h :: rest) ∧
        (isSent (sentencesOf exHybrid) h ∨ isWordRun 10 (sentencesOf exHybrid) h) ∧
        ∀ p ∈ rest, isSent (sentencesOf exHybrid) p :=
  ⟨by decide, by decide, c2_theorem exHybrid 10 (by decide) hybridChunk (by decide)⟩

/-- The 503-character single-sentence input used against claim C3:
168 two-character words separated by spaces. -/
def exMerge : List Char := spaceJoin (List.replicate 168 ['a', 'b'])

/-- Claim C3, counterexample: C3 states that tokenizing the concatenation
of the chunks yields the same word sequence as tokenizing the input.  For
the plain (separator-free) concatenation this fails: on a 503-character
sentence of two-character words, word-splitting produces two chunks, and
concatenating them merges the last word of the first chunk with the first
word of the second into a single token. -/
theorem c3_counterexample :
    tokens ((chunk_text exMerge 500).flatten) ≠ tokens exMerge := by
  decide

/-- Claim C3, amended: chunking loses no content when the chunks are kept
apart (equivalently, rejoined with a space, as `rewrite_text` does): the
concatenation of the chunks' token sequences equals the input's token
sequence, where tokenization normalizes `!` and `?` to `.`, splits on `.`,
then splits on whitespace. -/
theorem c3_theorem (text : List Char) (maxc : Nat) :
    ((chunk_text text maxc).map tokens).flatten = tokens text :=
  chunk_text_tokens text maxc

/-! Embedding of src/rewrite.py: validation, prompts, post-processing and
`rewrite_text`.  The generation pipeline is an oracle from prompts to
either generated text or a raised exception; sampling parameters
(`max_new_tokens`, `temperature`, `top_p`, ...) only influence the oracle
and are absorbed into it.  Model loading is a flag. -/

instance exceptDecEq {e a : Type} [DecidableEq e] [DecidableEq a] :
    DecidableEq (Except e a) := fun x y =>
  match x, y with
  | .ok v, .ok w =>
    if h : v = w then isTrue (by rw [h]) else isFalse (by simp [h])
  | .error v, .error w =>
    if h : v = w then isTrue (by rw [h]) else isFalse (by simp [h])
  | .ok _, .error _ => isFalse (by simp)
  | .error _, .ok _ => isFalse (by simp)

/-- Python `str.lower()` (ASCII). -/
def asciiLower (l : List Char) : List Char := l.map Char.toLower

/-- The tone whitelist of `validate_inputs` (src/rewrite.py lines 104-105). -/
def validTones : List (List Char) :=
  ["neutral", "professional", "casual", "academic", "creative",
   "formal", "happy", "sad", "angry"].map String.toList

/-- `get_tone_prompt(tone, text_preview)` from src/rewrite.py lines 68-85.
The `lru_cache` decorator does not change the value of this pure function
and is not modeled. -/
def get_tone_prompt (tone preview : List Char) : List Char :=
  let t := asciiLower tone
  if t = "neutral".toList then
    "Rewrite this text clearly and objectively: ".toList ++ preview
  else if t = "professional".toList then
    "Rewrite this text in a professional and formal manner: ".toList ++ preview
  else if t = "casual".toList then
    "Rewrite this text in a casual and friendly way: ".toList ++ preview
  else if t = "academic".toList then
    "Rewrite this text in an academic and scholarly tone: ".toList ++ preview
  else if t = "creative".toList then
    "Rewrite this text in a creative and engaging style: ".toList ++ preview
  else if t = "formal".toList then
    "Rewrite this text using formal language and structure: ".toList ++ preview
  else if t = "happy".toList then
    "Rewrite this text with a positive and upbeat tone: ".toList ++ preview
  else if t = "sad".toList then
    "Rewrite this text with a melancholic and somber tone: ".toList ++ preview
  else if t = "angry".toList then
    "Rewrite this text with strong and forceful language: ".toList ++ preview
  else
    "Rewrite this in a ".toList ++ t ++ " tone: ".toList ++ preview

/-- The exceptions `rewrite_text` can raise. -/
inductive RWError where
  | valueError (msg : List Char)
  | runtimeError (msg : List Char)
deriving DecidableEq

/-- `validate_inputs(text, tone, creativity, max_tokens)` from
src/rewrite.py lines 87-110; raising is returning `.error`.  `creativity`
is modeled as a rational, `max_tokens` as an integer. -/
def validate_inputs (text tone : List Char) (creativity : ℚ)
    (max_tokens : ℤ) : Except RWError (List Char) :=
  if pyStrip text = [] then
    .error (.valueError "Text cannot be empty".toList)
  else if (pyStrip text).length < 5 then
    .error (.valueError "Text is too short (minimum 5 characters)".toList)
  else if ¬ (1/10 ≤ creativity ∧ creativity ≤ 2) then
    .error (.valueError "Creativity must be between 0.1 and 2.0".toList)
  else if ¬ (10 ≤ max_tokens ∧ max_tokens ≤ 2048) then
    .error (.valueError "Max tokens must be between 10 and 2048".toList)
  else if asciiLower tone ∈ validTones then .ok (asciiLower tone)
  else .ok ("neutral".toList)

/-- Python `s.replace(a + b, rep)` for a two-character pattern:
left-to-right, non-overlapping, the replacement is not rescanned. -/
def replace2 (a b : Char) (rep : List Char) : List Char → List Char
  | [] => []
  | [c] => [c]
  | c :: d :: rest =>
    if c = a ∧ d = b then rep ++ replace2 a b rep rest
    else c :: replace2 a b rep (d :: rest)

/-- Python `s.split('. ')`: split on the two-character separator,
left-to-right, non-overlapping. -/
def splitDotSpace : List Char → List (List Char)
  | [] => [[]]
  | [c] => [[c]]
  | c :: d :: rest =>
    if c = '.' ∧ d = ' ' then [] :: splitDotSpace rest
    else
      match splitDotSpace (d :: rest) with
      | [] => [[c]]
      | h :: t => (c :: h) :: t

/-- `sentence[0].upper() + sentence[1:]`. -/
def capFirst : List Char → List Char
  | [] => []
  | c :: r => c.toUpper :: r

/-- `post_process_text(text)` from src/rewrite.py lines 258-281. -/
def post_process_text (text : List Char) : List Char :=
  if text = [] then text
  else
    let t1 := replace2 ' ' ' ' [' '] text
    let t2 := replace2 ' ' '.' ['.'] t1
    let t3 := replace2 ' ' ',' [','] t2
    let t4 := replace2 ' ' '!' ['!'] t3
    let t5 := replace2 ' ' '?' ['?'] t4
    let cleaned := (splitDotSpace t5).filterMap fun s =>
      if pyStrip s ≠ [] ∧ 1 < (pyStrip s).length then some (capFirst (pyStrip s))
      else none
    dotJoin cleaned

/-- A generation-pipeline oracle: maps a prompt to generated text or to a
raised exception. -/
def GenOracle : Type := List Char → Except Unit (List Char)

/-- The per-chunk loop of `rewrite_text` (src/rewrite.py lines 191-215):
on success the stripped generation result is kept, on an exception the
original chunk is substituted. -/
def chunkRewrite (gen : GenOracle) (tone2 : List Char)
    (chunks : List (List Char)) : List (List Char) :=
  chunks.map fun c =>
    match gen (get_tone_prompt tone2 c) with
    | .ok r => pyStrip r
    | .error _ => c

/-- Lines 185-238 of `rewrite_text`: the chunked path joins the per-chunk
results with spaces and cannot raise; the short path propagates a
generation exception. -/
def generate_result (gen : GenOracle) (tone2 t : List Char) :
    Except Unit (List Char) :=
  if 500 < t.length then
    .ok (spaceJoin (chunkRewrite gen tone2 (chunk_text t 400)))
  else
    match gen (get_tone_prompt tone2 t) with
    | .ok r => .ok (pyStrip r)
    | .error _ => .error ()

/-- `rewrite_text(text, tone, creativity, max_tokens)` from src/rewrite.py
lines 158-256.  `initOk` models whether `initialize_model` succeeds (its
failure surfaces as a RuntimeError through the outer handler). -/
def rewrite_text (gen : GenOracle) (initOk : Bool) (text tone : List Char)
    (creativity : ℚ) (max_tokens : ℤ) : Except RWError (List Char) :=
  match validate_inputs text tone creativity max_tokens with
  | .error e => .error e
  | .ok tone2 =>
    if ¬ initOk then .error (.runtimeError "Model initialization failed".toList)
    else
      match generate_result gen tone2 (pyStrip text) with
      | .error _ => .error (.runtimeError "Text generation failed".toList)
      | .ok fr =>
        if post_process_text fr = [] ∨ (pyStrip (post_process_text fr)).length < 5
        then .ok (pyStrip text)
        else .ok (post_process_text fr)

/-- Does `rewrite_text` raise a `ValueError`? -/
def isValueErr : Except RWError (List Char) → Bool
  | .error (.valueError _) => true
  | _ => false

/-! Claims C5, C8, C9 about `rewrite_text`. -/

theorem validate_inputs_err {text tone : List Char} {cr : ℚ} {mt : ℤ}
    (h : (pyStrip text).length < 5 ∨ cr < 1/10 ∨ 2 < cr ∨ mt < 10 ∨ 2048 < mt) :
    ∃ m, validate_inputs text tone cr mt = .error (.valueError m) := by
  by_cases h2 : (pyStrip text).length < 5
  · by_cases h1 : pyStrip text = []
    · exact ⟨_, by rw [validate_inputs, if_pos h1]⟩
    · exact ⟨_, by rw [validate_inputs, if_neg h1, if_pos h2]⟩
  · have h1 : pyStrip text ≠ [] := by
      intro hh
      apply h2
      rw [hh]
      decide
    by_cases h3 : 1/10 ≤ cr ∧ cr ≤ 2
    · have h4 : ¬ (10 ≤ mt ∧ mt ≤ 2048) := by
        rcases h with h | h | h | h | h
        · exact absurd h h2
        · exact absurd h3.1 (by linarith)
        · exact absurd h3.2 (by linarith)
        · omega
        · omega
      exact ⟨_, by rw [validate_inputs, if_neg h1, if_neg h2,
        if_neg (not_not_intro h3), if_pos h4]⟩
    · exact ⟨_, by rw [validate_inputs, if_neg h1, if_neg h2, if_pos h3]⟩

theorem validate_inputs_ok {text tone : List Char} {cr : ℚ} {mt : ℤ}
    (h : ¬ ((pyStrip text).length < 5 ∨ cr < 1/10 ∨ 2 < cr ∨ mt < 10 ∨
      2048 < mt)) :
    validate_inputs text tone cr mt
      = .ok (if asciiLower tone ∈ validTones then asciiLower tone
             else "neutral".toList) := by
  push_neg at h
  obtain ⟨hl, hc1, hc2, hm1, hm2⟩ := h
  have h1 : pyStrip text ≠ [] := by
    intro hh
    rw [hh] at hl
    simp at hl
  rw [validate_inputs, if_neg h1, if_neg (by omega),
    if_neg (not_not_intro ⟨hc1, hc2⟩), if_neg (not_not_intro ⟨hm1, hm2⟩)]
  split_ifs with ht
  · rfl
  · rfl

theorem validate_ok_length {text tone : List Char} {cr : ℚ} {mt : ℤ}
    {t2 : List Char} (h : validate_inputs text tone cr mt = .ok t2) :
    5 ≤ (pyStrip text).length := by
  by_cases h2 : (pyStrip text).length < 5
  · exfalso
    by_cases h1 : pyStrip text = []
    · rw [validate_inputs, if_pos h1] at h
      exact Except.noConfusion h
    · rw [validate_inputs, if_neg h1, if_pos h2] at h
      exact Except.noConfusion h
  · omega

theorem isValueErr_rewrite_of_ok {gen : GenOracle} {initOk : Bool}
    {text tone : List Char} {cr : ℚ} {mt : ℤ} {tone2 : List Char}
    (hok : validate_inputs text tone cr mt = .ok tone2) :
    isValueErr (rewrite_text gen initOk text tone cr mt) = false := by
  rw [rewrite_text, hok]
  cases initOk with
  | false => rfl
  | true =>
    rcases hg : generate_result gen tone2 (pyStrip text) with e | fr
    · simp only [hg]
      rfl
    · simp only [hg]
      split_ifs <;> rfl

/-- Claim C8: `rewrite_text` raises a `ValueError` exactly when the
stripped text is shorter than 5 characters (in particular when it is
empty), or `creativity` lies outside `[0.1, 2.0]`, or `max_tokens` lies
outside `[10, 2048]`; an unrecognized tone never raises and is silently
replaced by the tone `neutral`.  Failures of model loading or generation
surface as `RuntimeError`, never as `ValueError`. -/
theorem c8_theorem (gen : GenOracle) (initOk : Bool) (text tone : List Char)
    (cr : ℚ) (mt : ℤ) :
    (isValueErr (rewrite_text gen initOk text tone cr mt) = true ↔
      ((pyStrip text).length < 5 ∨ cr < 1/10 ∨ 2 < cr ∨ mt < 10 ∨
        2048 < mt)) ∧
    (asciiLower tone ∉ validTones →
      ¬ ((pyStrip text).length < 5 ∨ cr < 1/10 ∨ 2 < cr ∨ mt < 10 ∨
        2048 < mt) →
      validate_inputs text tone cr mt = .ok ("neutral".toList)) := by
  constructor
  · constructor
    · intro hVE
      by_contra hR
      rw [isValueErr_rewrite_of_ok (validate_inputs_ok hR)] at hVE
      exact Bool.noConfusion hVE
    · intro hR
      obtain ⟨m, hm⟩ := validate_inputs_err hR
      rw [rewrite_text, hm]
      rfl
  · intro ht hR
    rw [validate_inputs_ok hR, if_neg ht]

/-- The validation conditions hold at creativity `7/10` and
`max_tokens = 256` for any text of stripped length at least 5. -/
theorem validCond710 (text : List Char) (h5 : 5 ≤ (pyStrip text).length) :
    ¬ ((pyStrip text).length < 5 ∨ (7/10 : ℚ) < 1/10 ∨ 2 < (7/10 : ℚ) ∨
      (256 : ℤ) < 10 ∨ 2048 < (256 : ℤ)) := by
  push_neg
  exact ⟨by omega, by norm_num, by norm_num, by norm_num, by norm_num⟩

theorem validate_longWord_neutral :
    validate_inputs longWord ("Neutral".toList) (7/10) 256
      = .ok ("neutral".toList) := by
  rw [validate_inputs_ok (validCond710 longWord (by decide))]
  rw [if_pos (by decide : asciiLower ("Neutral".toList) ∈ validTones)]
  decide

/-- Witness for claim C8 at a concrete input: a too-short text raises a
`ValueError` and a valid input with an unknown tone validates to
`neutral`. -/
theorem c8_theorem_witness :
    isValueErr (rewrite_text (fun _ => .error ()) true ("hi".toList)
        ("Neutral".toList) (7/10) 256) = true ∧
    validate_inputs ("hello world".toList) ("Sarcastic".toList) (7/10) 256
      = .ok ("neutral".toList) := by
  constructor
  · exact (c8_theorem (fun _ => .error ()) true ("hi".toList)
      ("Neutral".toList) (7/10) 256).1.mpr (Or.inl (by decide))
  · exact (c8_theorem (fun _ => .error ()) true ("hello world".toList)
      ("Sarcastic".toList) (7/10) 256).2 (by decide)
      (validCond710 ("hello world".toList) (by decide))

/-- Claim C9: a successful `rewrite_text` never returns a near-empty
result: every `.ok` value has a stripped length of at least 5, and when
the post-processed generated text is empty or strips to fewer than 5
characters the stripped original input is returned instead. -/
theorem c9_theorem (gen : GenOracle) (initOk : Bool) (text tone : List Char)
    (cr : ℚ) (mt : ℤ) (r : List Char)
    (h : rewrite_text gen initOk text tone cr mt = .ok r) :
    5 ≤ (pyStrip r).length ∧
      ∀ tone2 fr, validate_inputs text tone cr mt = .ok tone2 →
        generate_result gen tone2 (pyStrip text) = .ok fr →
        (post_process_text fr = [] ∨
          (pyStrip (post_process_text fr)).length < 5) →
        r = pyStrip text := by
  rcases hv : validate_inputs text tone cr mt with e | tone2
  · rw [rewrite_text, hv] at h
    exact Except.noConfusion h
  · rw [rewrite_text, hv] at h
    cases initOk with
    | false => exact Except.noConfusion h
    | true =>
      rcases hg : generate_result gen tone2 (pyStrip text) with e2 | fr0
      · simp only [hg] at h
        exact Except.noConfusion h
      · simp only [hg] at h
        by_cases hc : post_process_text fr0 = [] ∨
            (pyStrip (post_process_text fr0)).length < 5
        · rw [if_pos hc] at h
          have hr : pyStrip text = r := Except.ok.inj h
          constructor
          · rw [← hr, pyStrip_idem]
            exact validate_ok_length hv
          · intro _ _ _ _ _
            exact hr.symm
        · rw [if_neg hc] at h
          have hr : post_process_text fr0 = r := Except.ok.inj h
          push_neg at hc
          constructor
          · rw [← hr]
            omega
          · intro tone3 fr hv2 hg2 hcond
            have ht : tone2 = tone3 := Except.ok.inj hv2
            rw [← ht] at hg2
            rw [hg] at hg2
            have hf : fr0 = fr := Except.ok.inj hg2
            rw [← hf] at hcond
            rcases hcond with hcond | hcond
            · exact absurd hcond hc.1
            · omega

/-- Witness for claim C9: with a generator that echoes a fixed short
answer, the result falls back to the stripped original. -/
theorem c9_theorem_witness :
    rewrite_text (fun _ => .ok ("x".toList)) true ("  hello world  ".toList)
        ("Neutral".toList) (7/10) 256 = .ok ("hello world".toList) ∧
      5 ≤ (pyStrip ("hello world".toList)).length := by
  have hval : validate_inputs ("  hello world  ".toList) ("Neutral".toList)
      (7/10) 256 = .ok ("neutral".toList) := by
    rw [validate_inputs_ok (validCond710 ("  hello world  ".toList) (by decide))]
    rw [if_pos (by decide : asciiLower ("Neutral".toList) ∈ validTones)]
    decide
  have hres : rewrite_text (fun _ => .ok ("x".toList)) true
      ("  hello world  ".toList) ("Neutral".toList) (7/10) 256
      = .ok ("hello world".toList) := by
    rw [rewrite_text, hval]
    decide
  exact ⟨hres,
    (c9_theorem (fun _ => .ok ("x".toList)) true ("  hello world  ".toList)
      ("Neutral".toList) (7/10) 256 ("hello world".toList) hres).1⟩

/-- The always-failing generation oracle. -/
def failGen : GenOracle := fun _ => Except.error ()

/-- Claim C5, counterexample: C5 states that a generation failure on an
individual chunk during chunked rewriting is surfaced as an error rather
than recovered from with substituted content.  With every generation call
failing on a 501-character input (which takes the chunked path), the
generation failure hits every chunk, yet `rewrite_text` returns `.ok`
with the original chunk text substituted (post-processing only capitalizes
its first letter) instead of raising. -/
theorem c5_counterexample :
    (∃ c ∈ chunk_text (pyStrip longWord) 400,
        failGen (get_tone_prompt ("neutral".toList) c) = Except.error ()) ∧
      rewrite_text failGen true longWord ("Neutral".toList) (7/10) 256
        = .ok ('A' :: List.replicate 500 'a') := by
  refine ⟨⟨longWord, by decide, rfl⟩, ?_⟩
  rw [rewrite_text, validate_longWord_neutral]
  decide

/-- Claim C5, amended: during chunked rewriting, a generation failure on
an individual chunk is recovered from by substituting the original chunk
text: for a valid long input the call returns `.ok` no matter which chunk
generations fail, the result is the post-processed space-join of the
per-chunk results, and every failed chunk contributes its original text to
those results. -/
theorem c5_theorem (gen : GenOracle) (text tone : List Char) (cr : ℚ)
    (mt : ℤ) (tone2 : List Char) (hlong : 500 < (pyStrip text).length)
    (hv : validate_inputs text tone cr mt = .ok tone2) :
    rewrite_text gen true text tone cr mt =
      (if post_process_text (spaceJoin (chunkRewrite gen tone2
            (chunk_text (pyStrip text) 400))) = [] ∨
          (pyStrip (post_process_text (spaceJoin (chunkRewrite gen tone2
            (chunk_text (pyStrip text) 400))))).length < 5
        then .ok (pyStrip text)
        else .ok (post_process_text (spaceJoin (chunkRewrite gen tone2
          (chunk_text (pyStrip text) 400))))) ∧
    (∃ out, rewrite_text gen true text tone cr mt = .ok out) ∧
    ∀ c ∈ chunk_text (pyStrip text) 400,
      gen (get_tone_prompt tone2 c) = .error () →
      c ∈ chunkRewrite gen tone2 (chunk_text (pyStrip text) 400) := by
  have hgen : generate_result gen tone2 (pyStrip text)
      = .ok (spaceJoin (chunkRewrite gen tone2
          (chunk_text (pyStrip text) 400))) := by
    rw [generate_result, if_pos hlong]
  have hmain : rewrite_text gen true text tone cr mt =
      (if post_process_text (spaceJoin (chunkRewrite gen tone2
            (chunk_text (pyStrip text) 400))) = [] ∨
          (pyStrip (post_process_text (spaceJoin (chunkRewrite gen tone2
            (chunk_text (pyStrip text) 400))))).length < 5
        then .ok (pyStrip text)
        else .ok (post_process_text (spaceJoin (chunkRewrite gen tone2
          (chunk_text (pyStrip text) 400))))) := by
    rw [rewrite_text, hv]
    simp only [hgen]
    rfl
  refine ⟨hmain, ?_, ?_⟩
  · rw [hmain]
    by_cases hc : post_process_text (spaceJoin (chunkRewrite gen tone2
          (chunk_text (pyStrip text) 400))) = [] ∨
        (pyStrip (post_process_text (spaceJoin (chunkRewrite gen tone2
          (chunk_text (pyStrip text) 400))))).length < 5
    · exact ⟨pyStrip text, if_pos hc⟩
    · exact ⟨_, if_neg hc⟩
  · intro c hc hfail
    rw [chunkRewrite]
    refine List.mem_map.mpr ⟨c, hc, ?_⟩
    rw [hfail]

/-- Witness for the amended C5 theorem at the 501-character input with the
always-failing oracle. -/
theorem c5_theorem_witness :
    500 < (pyStrip longWord).length ∧
      ∃ out, rewrite_text failGen true longWord ("Neutral".toList) (7/10) 256
        = .ok out :=
  ⟨by decide,
   (c5_theorem failGen longWord ("Neutral".toList) (7/10) 256
      ("neutral".toList) (by decide) validate_longWord_neutral).2.1⟩

/-! Embedding of src/tts.py.  The pyttsx3 engine is a record of the
properties the module touches; the outcomes of the external engine and
filesystem calls are an explicit oracle (`TTSEnv`).  An absent engine
(failed `pyttsx3.init()`) is the `none` case. -/

/-- The mutable engine properties src/tts.py reads or writes. -/
structure EngineState where
  voice : List Char
  rate : ℤ
  volume : ℚ
deriving DecidableEq

/-- Outcomes of the external calls made during one `generate_audio` or
`speak_text` call: whether each call raises, and whether the output file
exists with nonzero size afterwards. -/
structure TTSEnv where
  mkdirThrows : Bool
  getVoiceThrows : Bool
  setVoiceThrows : Bool
  getRateThrows : Bool
  setRateThrows : Bool
  saveThrows : Bool
  sayThrows : Bool
  runAndWaitThrows : Bool
  restoreVoiceThrows : Bool
  restoreRateThrows : Bool
  fileCreated : Bool
deriving DecidableEq

/-- `TTSEngine.set_voice` (src/tts.py lines 59-69): an exception inside is
caught there and reported as `false`. -/
def set_voice (env : TTSEnv) (st : EngineState) (vid : List Char) :
    Bool × EngineState :=
  if env.setVoiceThrows then (false, st)
  else (true, { st with voice := vid })

/-- `TTSEngine.set_speech_rate` (src/tts.py lines 71-83): clamps the rate
to `[50, 300]`; an exception inside is caught there and reported as
`false`. -/
def set_speech_rate (env : TTSEnv) (st : EngineState) (rate : ℤ) :
    Bool × EngineState :=
  if env.setRateThrows then (false, st)
  else (true, { st with rate := max 50 (min 300 rate) })

/-- Playback-related external calls observable from one `speak_text`
call.  A background thread start would be recorded as `threadStart`;
src/tts.py never creates one. -/
inductive TTSEvent where
  | sayCall
  | runAndWait
  | threadStart
deriving DecidableEq

/-- The settings-restore epilogue shared by `generate_audio` (lines
141-145) and `speak_text` (lines 213-217): `setProperty` is guarded by
Python truthiness (`if original_voice:` / `if original_rate:`), so an
empty saved voice or a zero saved rate is not restored.  `.1 = none`
means an exception escaped (to be caught by the caller's handler). -/
def restore_rate (env : TTSEnv) (st : EngineState) (origRate : Option ℤ) :
    Option Unit × EngineState :=
  match origRate with
  | some r =>
    if r ≠ 0 then
      if env.restoreRateThrows then (none, st)
      else (some (), { st with rate := r })
    else (some (), st)
  | none => (some (), st)

def restore_props (env : TTSEnv) (st : EngineState)
    (origVoice : Option (List Char)) (origRate : Option ℤ) :
    Option Unit × EngineState :=
  match origVoice with
  | some v =>
    if v ≠ [] then
      if env.restoreVoiceThrows then (none, st)
      else restore_rate env { st with voice := v } origRate
    else restore_rate env st origRate
  | none => restore_rate env st origRate

/-- Lines 137-153 of `generate_audio`: synthesis, restore, file check. -/
def gen_after_setup (env : TTSEnv) (st : EngineState) (outPath : List Char)
    (origVoice : Option (List Char)) (origRate : Option ℤ) :
    Option (List Char) × EngineState :=
  if env.saveThrows then (none, st)
  else if env.runAndWaitThrows then (none, st)
  else
    match restore_props env st origVoice origRate with
    | (none, st2) => (none, st2)
    | (some _, st2) =>
      if env.fileCreated then (some outPath, st2) else (none, st2)

/-- Lines 125-132 of `generate_audio`: the speech-rate block; a
`getProperty('rate')` exception is caught by the inner handler and leaves
both the rate and `original_rate` untouched. -/
def gen_after_voice (env : TTSEnv) (st : EngineState) (outPath : List Char)
    (origVoice : Option (List Char)) (speech_rate : ℤ) :
    Option (List Char) × EngineState :=
  if speech_rate ≠ 180 then
    if env.getRateThrows then gen_after_setup env st outPath origVoice none
    else gen_after_setup env ((set_speech_rate env st speech_rate).2) outPath
      origVoice (some st.rate)
  else gen_after_setup env st outPath origVoice none

/-- `generate_audio(text, output_path, speech_rate, voice_id)` from
src/tts.py lines 88-157: returns the Python return value and the engine
state after the call. -/
def generate_audio_model (env : TTSEnv) (engine : Option EngineState)
    (text outPath : List Char) (speech_rate : ℤ)
    (voice_id : Option (List Char)) :
    Option (List Char) × Option EngineState :=
  if pyStrip text = [] then (none, engine)
  else
    match engine with
    | none => (none, none)
    | some st =>
      if env.mkdirThrows then (none, some st)
      else
        match voice_id with
        | some vid =>
          if env.getVoiceThrows then
            let r := gen_after_voice env st outPath none speech_rate
            (r.1, some r.2)
          else
            let r := gen_after_voice env ((set_voice env st vid).2) outPath
              (some st.voice) speech_rate
            (r.1, some r.2)
        | none =>
          let r := gen_after_voice env st outPath none speech_rate
          (r.1, some r.2)

/-- Lines 208-219 of `speak_text`: say, runAndWait, restore.  Any
exception here is caught by the outer handler, returning `False`. -/
def speak_after_rate (env : TTSEnv) (st : EngineState)
    (origVoice : Option (List Char)) (origRate : Option ℤ) :
    Bool × EngineState × List TTSEvent :=
  if env.sayThrows then (false, st, [TTSEvent.sayCall])
  else if env.runAndWaitThrows then
    (false, st, [TTSEvent.sayCall, TTSEvent.runAndWait])
  else
    match restore_props env st origVoice origRate with
    | (none, st2) => (false, st2, [TTSEvent.sayCall, TTSEvent.runAndWait])
    | (some _, st2) => (true, st2, [TTSEvent.sayCall, TTSEvent.runAndWait])

/-- Lines 202-206 of `speak_text`: the speech-rate block.  Unlike in
`generate_audio` there is no inner handler: a `getProperty('rate')`
exception propagates to the outer handler and the call returns `False`. -/
def speak_after_voice (env : TTSEnv) (st : EngineState)
    (origVoice : Option (List Char)) (speech_rate : ℤ) :
    Bool × EngineState × List TTSEvent :=
  if speech_rate ≠ 180 then
    if env.getRateThrows then (false, st, [])
    else speak_after_rate env ((set_speech_rate env st speech_rate).2)
      origVoice (some st.rate)
  else speak_after_rate env st origVoice none

/-- `speak_text(text, speech_rate, voice_id)` from src/tts.py lines
174-223, over a present engine: returns the Python return value, the
engine state after the call, and the trace of playback-related calls.
The voice block (lines 197-200) has no inner handler either: a
`getProperty('voice')` exception returns `False` before anything is
spoken. -/
def speak_text_model (env : TTSEnv) (st : EngineState) (speech_rate : ℤ)
    (voice_id : Option (List Char)) :
    Bool × EngineState × List TTSEvent :=
  match voice_id with
  | some vid =>
    if env.getVoiceThrows then (false, st, [])
    else speak_after_voice env ((set_voice env st vid).2) (some st.voice)
      speech_rate
  | none => speak_after_voice env st none speech_rate

/-- `speak_text` including the empty-text and missing-engine guards
(src/tts.py lines 186-192). -/
def speak_text_top (env : TTSEnv) (engine : Option EngineState)
    (text : List Char) (speech_rate : ℤ) (voice_id : Option (List Char)) :
    Bool × Option EngineState × List TTSEvent :=
  if pyStrip text = [] then (false, engine, [])
  else
    match engine with
    | none => (false, none, [])
    | some st =>
      let r := speak_text_model env st speech_rate voice_id
      (r.1, some r.2.1, r.2.2)

/-- `get_available_voices` (src/tts.py lines 47-57 and 225-227):
`voicesList` is the oracle value of `getProperty('voices')` (already
paired as `(id, name)`); a falsy value or an exception yields `[]`. -/
def get_available_voices (engine : Option EngineState)
    (getVoicesThrows : Bool) (voicesList : List (List Char × List Char)) :
    List (List Char × List Char) :=
  match engine with
  | none => []
  | some _ => if getVoicesThrows then [] else voicesList

/-- No call of the oracle raises. -/
def noThrows (env : TTSEnv) : Prop :=
  env.mkdirThrows = false ∧ env.getVoiceThrows = false ∧
  env.setVoiceThrows = false ∧ env.getRateThrows = false ∧
  env.setRateThrows = false ∧ env.saveThrows = false ∧
  env.sayThrows = false ∧ env.runAndWaitThrows = false ∧
  env.restoreVoiceThrows = false ∧ env.restoreRateThrows = false

/-! Claims C4, C7, C10 about the TTS layer. -/

theorem gen_after_setup_none {env : TTSEnv} {st : EngineState}
    {outPath : List Char} {ov : Option (List Char)} {orr : Option ℤ}
    (h : env.saveThrows = true ∨ env.runAndWaitThrows = true) :
    (gen_after_setup env st outPath ov orr).1 = none := by
  rw [gen_after_setup]
  by_cases hs : env.saveThrows = true
  · rw [if_pos hs]
  · rw [if_neg hs]
    have hr : env.runAndWaitThrows = true := by
      rcases h with h | h
      · exact absurd h hs
      · exact h
    rw [if_pos hr]

theorem gen_after_voice_none {env : TTSEnv} {st : EngineState}
    {outPath : List Char} {ov : Option (List Char)} {rate : ℤ}
    (h : env.saveThrows = true ∨ env.runAndWaitThrows = true) :
    (gen_after_voice env st outPath ov rate).1 = none := by
  rw [gen_after_voice]
  split_ifs <;> exact gen_after_setup_none h

theorem gen_after_setup_some {env : TTSEnv} {st : EngineState}
    {outPath : List Char} {ov : Option (List Char)} {orr : Option ℤ}
    {p : List Char}
    (h : (gen_after_setup env st outPath ov orr).1 = some p) :
    p = outPath ∧ env.fileCreated = true := by
  rw [gen_after_setup] at h
  by_cases hs : env.saveThrows = true
  · rw [if_pos hs] at h
    simp at h
  · rw [if_neg hs] at h
    by_cases hr : env.runAndWaitThrows = true
    · rw [if_pos hr] at h
      simp at h
    · rw [if_neg hr] at h
      rcases hrp : restore_props env st ov orr with ⟨u, st2⟩
      rw [hrp] at h
      cases u with
      | none => simp at h
      | some u0 =>
        have h2 : (if env.fileCreated = true then
            ((some outPath : Option (List Char)), st2)
          else (none, st2)).1 = some p := h
        by_cases hf : env.fileCreated = true
        · rw [if_pos hf] at h2
          simp at h2
          exact ⟨h2.symm, hf⟩
        · rw [if_neg hf] at h2
          simp at h2

theorem gen_after_voice_some {env : TTSEnv} {st : EngineState}
    {outPath : List Char} {ov : Option (List Char)} {rate : ℤ}
    {p : List Char}
    (h : (gen_after_voice env st outPath ov rate).1 = some p) :
    p = outPath ∧ env.fileCreated = true := by
  rw [gen_after_voice] at h
  split_ifs at h <;> exact gen_after_setup_some h

theorem speak_after_rate_false {env : TTSEnv} {st : EngineState}
    {ov : Option (List Char)} {orr : Option ℤ}
    (h : env.sayThrows = true ∨ env.runAndWaitThrows = true) :
    (speak_after_rate env st ov orr).1 = false := by
  rw [speak_after_rate]
  by_cases hs : env.sayThrows = true
  · rw [if_pos hs]
  · rw [if_neg hs]
    have hr : env.runAndWaitThrows = true := by
      rcases h with h | h
      · exact absurd h hs
      · exact h
    rw [if_pos hr]

theorem speak_after_voice_false {env : TTSEnv} {st : EngineState}
    {ov : Option (List Char)} {rate : ℤ}
    (h : env.sayThrows = true ∨ env.runAndWaitThrows = true) :
    (speak_after_voice env st ov rate).1 = false := by
  rw [speak_after_voice]
  split_ifs
  · rfl
  · exact speak_after_rate_false h
  · exact speak_after_rate_false h

theorem speak_text_model_false {env : TTSEnv} {st : EngineState}
    {rate : ℤ} {vid : Option (List Char)}
    (h : env.sayThrows = true ∨ env.runAndWaitThrows = true) :
    (speak_text_model env st rate vid).1 = false := by
  cases vid with
  | none => exact speak_after_voice_false h
  | some v =>
    rw [speak_text_model]
    by_cases hg : env.getVoiceThrows = true
    · rw [if_pos hg]
    · rw [if_neg hg]
      exact speak_after_voice_false h

theorem restore_rate_ok {env : TTSEnv} (h10 : env.restoreRateThrows = false)
    (st : EngineState) (orr : Option ℤ) :
    ∃ st2, restore_rate env st orr = (some (), st2) := by
  cases orr with
  | none => exact ⟨st, rfl⟩
  | some r =>
    rw [restore_rate]
    split_ifs with hr0 hth
    · rw [h10] at hth
      exact absurd hth (by simp)
    · exact ⟨_, rfl⟩
    · exact ⟨st, rfl⟩

theorem restore_props_ok {env : TTSEnv} (h9 : env.restoreVoiceThrows = false)
    (h10 : env.restoreRateThrows = false) (st : EngineState)
    (ov : Option (List Char)) (orr : Option ℤ) :
    ∃ st2, restore_props env st ov orr = (some (), st2) := by
  cases ov with
  | none => exact restore_rate_ok h10 st orr
  | some v =>
    rw [restore_props]
    split_ifs with hv0 hth
    · rw [h9] at hth
      exact absurd hth (by simp)
    · exact restore_rate_ok h10 _ orr
    · exact restore_rate_ok h10 st orr

theorem speak_after_rate_ok {env : TTSEnv} {st : EngineState}
    {ov : Option (List Char)} {orr : Option ℤ} (h7 : env.sayThrows = false)
    (h8 : env.runAndWaitThrows = false) (h9 : env.restoreVoiceThrows = false)
    (h10 : env.restoreRateThrows = false) :
    (speak_after_rate env st ov orr).1 = true := by
  rw [speak_after_rate, if_neg (by simp [h7]), if_neg (by simp [h8])]
  obtain ⟨st2, hrp⟩ := restore_props_ok h9 h10 st ov orr
  rw [hrp]

/-- Claim C4: the TTS layer surfaces every failure as a return value:
`generate_audio` returns `None` on blank text, on a missing engine, and
on any exception during synthesis, and returns the output path only when
the output file exists with nonzero size; `speak_text` returns `False` on
those failures and `True` exactly on the fully successful path;
`get_available_voices` returns `[]` when the engine is missing or the
voice query raises. -/
theorem c4_theorem (env : TTSEnv) (engine : Option EngineState)
    (text outPath : List Char) (rate : ℤ) (vid : Option (List Char))
    (st : EngineState) (gvThrows : Bool)
    (voicesList : List (List Char × List Char)) :
    (pyStrip text = [] →
      (generate_audio_model env engine text outPath rate vid).1 = none) ∧
    ((generate_audio_model env none text outPath rate vid).1 = none) ∧
    (env.saveThrows = true ∨ env.runAndWaitThrows = true →
      (generate_audio_model env engine text outPath rate vid).1 = none) ∧
    (∀ p, (generate_audio_model env engine text outPath rate vid).1 = some p →
      p = outPath ∧ env.fileCreated = true) ∧
    (pyStrip text = [] → (speak_text_top env engine text rate vid).1 = false) ∧
    ((speak_text_top env none text rate vid).1 = false) ∧
    (env.sayThrows = true ∨ env.runAndWaitThrows = true →
      (speak_text_top env engine text rate vid).1 = false) ∧
    (noThrows env → pyStrip text ≠ [] →
      (speak_text_top env (some st) text rate vid).1 = true) ∧
    (get_available_voices none gvThrows voicesList = []) ∧
    (get_available_voices (some st) true voicesList = []) := by
  refine ⟨?_, ?_, ?_, ?_, ?_, ?_, ?_, ?_, rfl, by rw [get_available_voices, if_pos rfl]⟩
  · intro hb
    rw [generate_audio_model.eq_def, if_pos hb]
  · by_cases hb : pyStrip text = []
    · rw [generate_audio_model.eq_def, if_pos hb]
    · rw [generate_audio_model.eq_def, if_neg hb]
  · intro h
    by_cases hb : pyStrip text = []
    · rw [generate_audio_model.eq_def, if_pos hb]
    · rw [generate_audio_model.eq_def, if_neg hb]
      cases engine with
      | none => rfl
      | some st1 =>
        by_cases hm : env.mkdirThrows = true
        · simp [hm]
        · cases vid with
          | none =>
            simp [hm]
            exact gen_after_voice_none h
          | some v =>
            by_cases hg : env.getVoiceThrows = true
            · simp [hm, hg]
              exact gen_after_voice_none h
            · simp [hm, hg]
              exact gen_after_voice_none h
  · intro p hp
    by_cases hb : pyStrip text = []
    · rw [generate_audio_model.eq_def, if_pos hb] at hp
      simp at hp
    · rw [generate_audio_model.eq_def, if_neg hb] at hp
      cases engine with
      | none => simp at hp
      | some st1 =>
        by_cases hm : env.mkdirThrows = true
        · simp [hm] at hp
        · cases vid with
          | none =>
            simp [hm] at hp
            exact gen_after_voice_some hp
          | some v =>
            by_cases hg : env.getVoiceThrows = true
            · simp [hm, hg] at hp
              exact gen_after_voice_some hp
            · simp [hm, hg] at hp
              exact gen_after_voice_some hp
  · intro hb
    rw [speak_text_top.eq_def, if_pos hb]
  · by_cases hb : pyStrip text = []
    · rw [speak_text_top.eq_def, if_pos hb]
    · rw [speak_text_top.eq_def, if_neg hb]
  · intro h
    by_cases hb : pyStrip text = []
    · rw [speak_text_top.eq_def, if_pos hb]
    · rw [speak_text_top.eq_def, if_neg hb]
      cases engine with
      | none => rfl
      | some st1 => exact speak_text_model_false h
  · intro hn hb
    obtain ⟨h1, h2, h3, h4, h5, h6, h7, h8, h9, h10⟩ := hn
    rw [speak_text_top.eq_def, if_neg hb]
    show (speak_text_model env st rate vid).1 = true
    cases vid with
    | none =>
      show (speak_after_voice env st none rate).1 = true
      rw [speak_after_voice]
      split_ifs with h180 hg
      · rw [h4] at hg
        exact absurd hg (by simp)
      · exact speak_after_rate_ok h7 h8 h9 h10
      · exact speak_after_rate_ok h7 h8 h9 h10
    | some v =>
      rw [speak_text_model, if_neg (by simp [h2])]
      rw [speak_after_voice]
      split_ifs with h180 hg
      · rw [h4] at hg
        exact absurd hg (by simp)
      · exact speak_after_rate_ok h7 h8 h9 h10
      · exact speak_after_rate_ok h7 h8 h9 h10

/-- An oracle with no exceptions and a successfully written file. -/
def envOK : TTSEnv :=
  ⟨false, false, false, false, false, false, false, false, false, false, true⟩

/-- A concrete engine state with a nonempty voice and nonzero rate. -/
def st0 : EngineState := ⟨"v0".toList, 170, 1⟩

/-- Witness for claim C4: blank text yields `None`, and a fully
successful `speak_text` call yields `True`. -/
theorem c4_theorem_witness :
    (generate_audio_model envOK (some st0) ([] : List Char)
        ("o.wav".toList) 180 none).1 = none ∧
      (speak_text_top envOK (some st0) ("hello".toList) 180 none).1 = true :=
  ⟨(c4_theorem envOK (some st0) [] ("o.wav".toList) 180 none st0 false []).1
      rfl,
   (c4_theorem envOK (some st0) ("hello".toList) ("o.wav".toList) 180 none
      st0 false []).2.2.2.2.2.2.2.1
      ⟨rfl, rfl, rfl, rfl, rfl, rfl, rfl, rfl, rfl, rfl⟩ (by decide)⟩

theorem speak_after_rate_trace (env : TTSEnv) (st : EngineState)
    (ov : Option (List Char)) (orr : Option ℤ) :
    ((speak_after_rate env st ov orr).2.2 = [TTSEvent.sayCall] ∨
      (speak_after_rate env st ov orr).2.2
        = [TTSEvent.sayCall, TTSEvent.runAndWait]) ∧
    ((speak_after_rate env st ov orr).1 = true →
      (speak_after_rate env st ov orr).2.2
        = [TTSEvent.sayCall, TTSEvent.runAndWait]) := by
  rw [speak_after_rate]
  by_cases hs : env.sayThrows = true
  · rw [if_pos hs]
    exact ⟨Or.inl rfl, fun h => by simp at h⟩
  · rw [if_neg hs]
    by_cases hw : env.runAndWaitThrows = true
    · rw [if_pos hw]
      exact ⟨Or.inr rfl, fun h => by simp at h⟩
    · rw [if_neg hw]
      rcases hrp : restore_props env st ov orr with ⟨u, st2⟩
      cases u with
      | none => exact ⟨Or.inr rfl, fun _ => rfl⟩
      | some u0 => exact ⟨Or.inr rfl, fun _ => rfl⟩

theorem speak_after_voice_trace (env : TTSEnv) (st : EngineState)
    (ov : Option (List Char)) (rate : ℤ) :
    ((speak_after_voice env st ov rate).2.2 = [] ∨
      (speak_after_voice env st ov rate).2.2 = [TTSEvent.sayCall] ∨
      (speak_after_voice env st ov rate).2.2
        = [TTSEvent.sayCall, TTSEvent.runAndWait]) ∧
    ((speak_after_voice env st ov rate).1 = true →
      (speak_after_voice env st ov rate).2.2
        = [TTSEvent.sayCall, TTSEvent.runAndWait]) := by
  rw [speak_after_voice]
  split_ifs with h180 hg
  · exact ⟨Or.inl rfl, fun h => by simp at h⟩
  · refine ⟨?_, (speak_after_rate_trace env _ ov _).2⟩
    rcases (speak_after_rate_trace env _ ov _).1 with h | h
    · exact Or.inr (Or.inl h)
    · exact Or.inr (Or.inr h)
  · refine ⟨?_, (speak_after_rate_trace env st ov none).2⟩
    rcases (speak_after_rate_trace env st ov none).1 with h | h
    · exact Or.inr (Or.inl h)
    · exact Or.inr (Or.inr h)

theorem speak_text_model_trace (env : TTSEnv) (st : EngineState)
    (rate : ℤ) (vid : Option (List Char)) :
    ((speak_text_model env st rate vid).2.2 = [] ∨
      (speak_text_model env st rate vid).2.2 = [TTSEvent.sayCall] ∨
      (speak_text_model env st rate vid).2.2
        = [TTSEvent.sayCall, TTSEvent.runAndWait]) ∧
    ((speak_text_model env st rate vid).1 = true →
      (speak_text_model env st rate vid).2.2
        = [TTSEvent.sayCall, TTSEvent.runAndWait]) := by
  cases vid with
  | none => exact speak_after_voice_trace env st none rate
  | some v =>
    rw [speak_text_model]
    by_cases hg : env.getVoiceThrows = true
    · rw [if_pos hg]
      exact ⟨Or.inl rfl, fun h => by simp at h⟩
    · rw [if_neg hg]
      exact speak_after_voice_trace env _ (some st.voice) rate

/-- Claim C7, counterexample: the claim says Quick Speak fires a detached
background thread that speaks the text while the interface returns at
once.  `speak_text` (src/tts.py lines 174-223) creates no thread: on the
fully successful concrete call below its playback trace is exactly the
`say` call followed by the blocking `runAndWait` call, contains no thread
start, and the call returns `True` only after `runAndWait` completed. -/
theorem c7_counterexample :
    (speak_text_top envOK (some st0) ("Hi there".toList) 180 none).1
        = true ∧
      (speak_text_top envOK (some st0) ("Hi there".toList) 180 none).2.2
        = [TTSEvent.sayCall, TTSEvent.runAndWait] ∧
      TTSEvent.threadStart ∉
        (speak_text_top envOK (some st0) ("Hi there".toList) 180 none).2.2 :=
  ⟨by decide, by decide, by decide⟩

/-- Claim C7, amended: speech in `speak_text` is synchronous, not
threaded: no call trace of `speak_text` ever contains a thread start, and
whenever the call reports success the blocking `runAndWait` call occurs
in its trace before the function returns. -/
theorem c7_theorem (env : TTSEnv) (engine : Option EngineState)
    (text : List Char) (rate : ℤ) (vid : Option (List Char)) :
    TTSEvent.threadStart ∉ (speak_text_top env engine text rate vid).2.2 ∧
      ((speak_text_top env engine text rate vid).1 = true →
        TTSEvent.runAndWait ∈ (speak_text_top env engine text rate vid).2.2) := by
  by_cases hb : pyStrip text = []
  · rw [speak_text_top.eq_def, if_pos hb]
    exact ⟨by simp, fun h => by simp at h⟩
  · rw [speak_text_top.eq_def, if_neg hb]
    cases engine with
    | none => exact ⟨by simp, fun h => by simp at h⟩
    | some st =>
      have ht := speak_text_model_trace env st rate vid
      constructor
      · show TTSEvent.threadStart ∉ (speak_text_model env st rate vid).2.2
        rcases ht.1 with h | h | h <;> rw [h] <;> decide
      · intro hs
        show TTSEvent.runAndWait ∈ (speak_text_model env st rate vid).2.2
        have hs2 : (speak_text_model env st rate vid).1 = true := hs
        rw [ht.2 hs2]
        decide

/-- Witness for claim C7: a successful concrete call, with the
success hypothesis of the second conjunct discharged. -/
theorem c7_theorem_witness :
    TTSEvent.threadStart ∉
        (speak_text_top envOK (some st0) ("ok now".toList) 180 none).2.2 ∧
      TTSEvent.runAndWait ∈
        (speak_text_top envOK (some st0) ("ok now".toList) 180 none).2.2 :=
  ⟨(c7_theorem envOK (some st0) ("ok now".toList) 180 none).1,
    (c7_theorem envOK (some st0) ("ok now".toList) 180 none).2 (by decide)⟩

theorem restore_props_none_none (env : TTSEnv) (st : EngineState) :
    restore_props env st none none = (some (), st) := rfl

theorem restore_props_rate_only {env : TTSEnv}
    (h10 : env.restoreRateThrows = false) (st : EngineState) {r : ℤ}
    (hr : r ≠ 0) :
    restore_props env st none (some r) = (some (), { st with rate := r }) := by
  show restore_rate env st (some r) = _
  rw [restore_rate, if_pos hr, if_neg (by simp [h10])]

theorem restore_props_voice_only {env : TTSEnv}
    (h9 : env.restoreVoiceThrows = false) (st : EngineState)
    {v : List Char} (hv : v ≠ []) :
    restore_props env st (some v) none = (some (), { st with voice := v }) := by
  rw [restore_props, if_pos hv, if_neg (by simp [h9])]
  rfl

theorem restore_props_voice_rate {env : TTSEnv}
    (h9 : env.restoreVoiceThrows = false)
    (h10 : env.restoreRateThrows = false) (st : EngineState)
    {v : List Char} {r : ℤ} (hv : v ≠ []) (hr : r ≠ 0) :
    restore_props env st (some v) (some r)
      = (some (), { st with voice := v, rate := r }) := by
  rw [restore_props, if_pos hv, if_neg (by simp [h9]), restore_rate,
    if_pos hr, if_neg (by simp [h10])]

theorem gen_after_setup_snd {env : TTSEnv} (h6 : env.saveThrows = false)
    (h8 : env.runAndWaitThrows = false) (st st2 : EngineState)
    (outPath : List Char) (ov : Option (List Char)) (orr : Option ℤ)
    (hrp : restore_props env st ov orr = (some (), st2)) :
    (gen_after_setup env st outPath ov orr).2 = st2 := by
  rw [gen_after_setup, if_neg (by simp [h6]), if_neg (by simp [h8]), hrp]
  show (if env.fileCreated = true then ((some outPath : Option (List Char)), st2)
      else (none, st2)).2 = st2
  split_ifs <;> rfl

theorem speak_after_rate_snd {env : TTSEnv} (h7 : env.sayThrows = false)
    (h8 : env.runAndWaitThrows = false) (st st2 : EngineState)
    (ov : Option (List Char)) (orr : Option ℤ)
    (hrp : restore_props env st ov orr = (some (), st2)) :
    (speak_after_rate env st ov orr).2.1 = st2 := by
  rw [speak_after_rate, if_neg (by simp [h7]), if_neg (by simp [h8]), hrp]

theorem gen_after_voice_restore_none {env : TTSEnv}
    (h5 : env.setRateThrows = false) (h6 : env.saveThrows = false)
    (h8 : env.runAndWaitThrows = false)
    (h10 : env.restoreRateThrows = false) (st : EngineState)
    (hr : st.rate ≠ 0) (outPath : List Char) (rate : ℤ) :
    (gen_after_voice env st outPath none rate).2 = st := by
  rw [gen_after_voice]
  split_ifs with h180 hg
  · exact gen_after_setup_snd h6 h8 st st outPath none none rfl
  · have hsr : (set_speech_rate env st rate).2
        = { st with rate := max 50 (min 300 rate) } := by
      rw [set_speech_rate, if_neg (by simp [h5])]
    rw [hsr]
    refine gen_after_setup_snd h6 h8 _ st outPath none (some st.rate) ?_
    rw [restore_props_rate_only h10 _ hr]
  · exact gen_after_setup_snd h6 h8 st st outPath none none rfl

theorem gen_after_voice_restore_voice {env : TTSEnv}
    (h3 : env.setVoiceThrows = false) (h5 : env.setRateThrows = false)
    (h6 : env.saveThrows = false) (h8 : env.runAndWaitThrows = false)
    (h9 : env.restoreVoiceThrows = false)
    (h10 : env.restoreRateThrows = false) (st : EngineState)
    (hv : st.voice ≠ []) (hr : st.rate ≠ 0) (vid outPath : List Char)
    (rate : ℤ) :
    (gen_after_voice env ((set_voice env st vid).2) outPath
      (some st.voice) rate).2 = st := by
  have hsv : (set_voice env st vid).2 = { st with voice := vid } := by
    rw [set_voice, if_neg (by simp [h3])]
  rw [hsv, gen_after_voice]
  split_ifs with h180 hg
  · refine gen_after_setup_snd h6 h8 _ st outPath _ none ?_
    rw [restore_props_voice_only h9 _ hv]
  · have hsr : (set_speech_rate env { st with voice := vid } rate).2
        = { st with voice := vid, rate := max 50 (min 300 rate) } := by
      rw [set_speech_rate, if_neg (by simp [h5])]
    rw [hsr]
    refine gen_after_setup_snd h6 h8 _ st outPath _ _ ?_
    rw [restore_props_voice_rate h9 h10 _ hv hr]
  · refine gen_after_setup_snd h6 h8 _ st outPath _ none ?_
    rw [restore_props_voice_only h9 _ hv]

theorem speak_after_voice_restore_none {env : TTSEnv}
    (h5 : env.setRateThrows = false) (h7 : env.sayThrows = false)
    (h8 : env.runAndWaitThrows = false)
    (h10 : env.restoreRateThrows = false) (st : EngineState)
    (hr : st.rate ≠ 0) (rate : ℤ) :
    (speak_after_voice env st none rate).2.1 = st := by
  rw [speak_after_voice]
  split_ifs with h180 hg
  · rfl
  · have hsr : (set_speech_rate env st rate).2
        = { st with rate := max 50 (min 300 rate) } := by
      rw [set_speech_rate, if_neg (by simp [h5])]
    rw [hsr]
    refine speak_after_rate_snd h7 h8 _ st none (some st.rate) ?_
    rw [restore_props_rate_only h10 _ hr]
  · exact speak_after_rate_snd h7 h8 st st none none rfl

theorem speak_after_voice_restore_voice {env : TTSEnv}
    (h3 : env.setVoiceThrows = false) (h4 : env.getRateThrows = false)
    (h5 : env.setRateThrows = false)
    (h7 : env.sayThrows = false) (h8 : env.runAndWaitThrows = false)
    (h9 : env.restoreVoiceThrows = false)
    (h10 : env.restoreRateThrows = false) (st : EngineState)
    (hv : st.voice ≠ []) (hr : st.rate ≠ 0) (vid : List Char) (rate : ℤ) :
    (speak_after_voice env ((set_voice env st vid).2) (some st.voice)
      rate).2.1 = st := by
  have hsv : (set_voice env st vid).2 = { st with voice := vid } := by
    rw [set_voice, if_neg (by simp [h3])]
  rw [hsv, speak_after_voice]
  split_ifs with h180 hg
  · rw [h4] at hg
    exact absurd hg (by simp)
  · have hsr : (set_speech_rate env { st with voice := vid } rate).2
        = { st with voice := vid, rate := max 50 (min 300 rate) } := by
      rw [set_speech_rate, if_neg (by simp [h5])]
    rw [hsr]
    refine speak_after_rate_snd h7 h8 _ st _ _ ?_
    rw [restore_props_voice_rate h9 h10 _ hv hr]
  · refine speak_after_rate_snd h7 h8 _ st _ none ?_
    rw [restore_props_voice_only h9 _ hv]

/-- A concrete engine state with a falsy (zero) saved rate. -/
def stZero : EngineState := ⟨"v0".toList, 0, 1⟩

/-- Claim C10, counterexample: the claim says that whenever no exception
occurs, the engine voice and rate after `generate_audio` equal their
pre-call values.  With a pre-call rate of 0 and a custom speech rate,
the call completes without any exception, yet the engine rate afterwards
is the custom rate 100, not the pre-call value 0: the restore
(src/tts.py line 144) is guarded by Python truthiness
(`if original_rate:`), which skips a saved rate of 0.  (Line 142 guards
the saved voice the same way, so an empty saved voice string is also
never restored.) -/
theorem c10_counterexample :
    (generate_audio_model envOK (some stZero) ("hello world".toList)
        ("o.wav".toList) 100 none).2
      = some ⟨"v0".toList, 100, 1⟩ ∧
      stZero.rate = 0 ∧ (100 : ℤ) ≠ 0 :=
  ⟨rfl, rfl, by decide⟩

/-- Claim C10, amended: if no external call raises and the pre-call
voice is nonempty and the pre-call rate nonzero (so that the
truthiness-guarded restores at src/tts.py lines 142-145 and 214-217 do
run), then `generate_audio` and `speak_text` leave the engine state
exactly as it was before the call. -/
theorem c10_theorem (env : TTSEnv) (st : EngineState)
    (text outPath : List Char) (rate : ℤ) (vid : Option (List Char))
    (hn : noThrows env) (hv : st.voice ≠ []) (hr : st.rate ≠ 0) :
    (generate_audio_model env (some st) text outPath rate vid).2 = some st ∧
      (speak_text_top env (some st) text rate vid).2.1 = some st := by
  obtain ⟨h1, h2, h3, h4, h5, h6, h7, h8, h9, h10⟩ := hn
  constructor
  · by_cases hb : pyStrip text = []
    · rw [generate_audio_model.eq_def, if_pos hb]
    · rw [generate_audio_model.eq_def, if_neg hb]
      cases vid with
      | none =>
        simp [h1]
        exact gen_after_voice_restore_none h5 h6 h8 h10 st hr outPath rate
      | some v =>
        simp [h1, h2]
        exact gen_after_voice_restore_voice h3 h5 h6 h8 h9 h10 st hv hr
          v outPath rate
  · by_cases hb : pyStrip text = []
    · rw [speak_text_top.eq_def, if_pos hb]
    · rw [speak_text_top.eq_def, if_neg hb]
      cases vid with
      | none =>
        simp
        show (speak_after_voice env st none rate).2.1 = st
        exact speak_after_voice_restore_none h5 h7 h8 h10 st hr rate
      | some v =>
        simp
        show (if env.getVoiceThrows = true then
            ((false : Bool), st, ([] : List TTSEvent))
          else speak_after_voice env ((set_voice env st v).2)
            (some st.voice) rate).2.1 = st
        rw [if_neg (by simp [h2])]
        exact speak_after_voice_restore_voice h3 h4 h5 h7 h8 h9 h10 st hv hr
          v rate

/-- Witness for claim C10: a concrete no-exception call with custom
voice and rate restores the engine state exactly. -/
theorem c10_theorem_witness :
    (generate_audio_model envOK (some st0) ("abc".toList)
        ("o.wav".toList) 120 (some ("v1".toList))).2 = some st0 ∧
      (speak_text_top envOK (some st0) ("abc".toList) 120
        (some ("v1".toList))).2.1 = some st0 :=
  c10_theorem envOK st0 ("abc".toList) ("o.wav".toList) 120
    (some ("v1".toList))
    ⟨rfl, rfl, rfl, rfl, rfl, rfl, rfl, rfl, rfl, rfl⟩
    (by decide) (by decide)

/-! Claim C6: the session history in src/app.py. -/

/-- The `settings` sub-record of a history entry
(src/app.py lines 228-232). -/
structure HistorySettings where
  tone : List Char
  creativity : ℚ
  maxTokens : ℤ
deriving DecidableEq

/-- One history record (src/app.py lines 224-233). -/
structure HistoryEntry where
  timestamp : List Char
  original : List Char
  rewritten : List Char
  settings : HistorySettings
deriving DecidableEq

/-- The ways one run of the src/app.py script can touch
`st.session_state.history`: a completed rewrite appends one entry when
"Save processing history" is checked (lines 222-234), the Clear History
button empties the list (lines 108-110), and every other path
(audio-only, Quick Speak, no action) leaves it alone. -/
inductive AppAction where
  | rewriteDone (saveHistory : Bool) (e : HistoryEntry)
  | audioOnly
  | quickSpeak
  | clearHistory
  | noAction
deriving DecidableEq

/-- Effect of one script run on the history list. -/
def historyStep (a : AppAction) (h : List HistoryEntry) : List HistoryEntry :=
  match a with
  | .rewriteDone save e => if save then h ++ [e] else h
  | .clearHistory => []
  | _ => h

/-- The entries rendered by the history section (src/app.py line 363):
`reversed(st.session_state.history[-5:])`. -/
def displayedHistory (h : List HistoryEntry) : List HistoryEntry :=
  (h.drop (h.length - 5)).reverse

/-- Claim C6: the history list is append-only — every script run other
than Clear History extends the list by a (possibly empty) tail, never
modifying or removing existing records — Clear History empties it, and
the history display shows at most the last five entries of the list (a
suffix of it, most recent first). -/
theorem c6_theorem (a : AppAction) (h : List HistoryEntry) :
    (a ≠ AppAction.clearHistory → ∃ tail, historyStep a h = h ++ tail) ∧
    historyStep AppAction.clearHistory h = [] ∧
    (displayedHistory h).length ≤ 5 ∧
    ∃ pre, h = pre ++ (displayedHistory h).reverse := by
  refine ⟨?_, rfl, ?_, ?_⟩
  · intro hne
    cases a with
    | rewriteDone save e =>
      cases save with
      | true => exact ⟨[e], rfl⟩
      | false => exact ⟨[], by simp [historyStep]⟩
    | audioOnly => exact ⟨[], by simp [historyStep]⟩
    | quickSpeak => exact ⟨[], by simp [historyStep]⟩
    | clearHistory => exact absurd rfl hne
    | noAction => exact ⟨[], by simp [historyStep]⟩
  · simp only [displayedHistory, List.length_reverse, List.length_drop]
    omega
  · exact ⟨h.take (h.length - 5), by simp [displayedHistory]⟩

/-- A concrete history entry. -/
def entryA : HistoryEntry :=
  ⟨"2024-01-01T00:00:00".toList, "orig".toList, "new".toList,
    ⟨"neutral".toList, 1, 512⟩⟩

/-- Witness for claim C6: a saved rewrite on a concrete one-entry
history appends a tail, with the non-Clear-History hypothesis
discharged. -/
theorem c6_theorem_witness :
    ∃ tail, historyStep (AppAction.rewriteDone true entryA) [entryA]
      = [entryA] ++ tail :=
  (c6_theorem (AppAction.rewriteDone true entryA) [entryA]).1 (by simp)

end EchoVerse
